import Mathlib

/-!
Verification of the Kent (Fisher-Bingham-5) spherical distribution library
`kent_distribution.py`.  The numerical code is shallowly embedded over the
real numbers: vectors and matrices are explicit records of reals, the
external special-function library (the modified Bessel function `I`) and the
external symmetric eigendecomposition routine are abstract parameters, and
the data-dependent series loop of the normalizer is modelled with explicit
fuel (`none` = the loop did not stop within the given fuel).  Python
`assert` statements are modelled by `Option`-valued constructors.
-/

namespace Kent

noncomputable section

open Real

/-- A vector in 3-space (one row of the numpy arrays used by the source). -/
structure Vec3 where
  x : ℝ
  y : ℝ
  z : ℝ

/-- Inner product of two 3-vectors (`numpy.inner` / `sum(x*y)` in the source). -/
def dot (a b : Vec3) : ℝ := a.x * b.x + a.y * b.y + a.z * b.z

/-- Componentwise sum of 3-vectors. -/
def vadd (a b : Vec3) : Vec3 := ⟨a.x + b.x, a.y + b.y, a.z + b.z⟩

/-- Scalar multiple of a 3-vector. -/
def smul (r : ℝ) (v : Vec3) : Vec3 := ⟨r * v.x, r * v.y, r * v.z⟩

/-- Componentwise division of a 3-vector by a scalar (numpy `v / r`). -/
def vdiv (v : Vec3) (r : ℝ) : Vec3 := ⟨v.x / r, v.y / r, v.z / r⟩

/-- The helper `norm` of the source: `sqrt(sum(x*x))`. -/
def norm (v : Vec3) : ℝ := Real.sqrt (dot v v)

/-- Cross product (`numpy.cross`). -/
def cross (a b : Vec3) : Vec3 :=
  ⟨a.y * b.z - a.z * b.y, a.z * b.x - a.x * b.z, a.x * b.y - a.y * b.x⟩

/-- A 3 by 3 real matrix, row major. -/
structure Mat3 where
  a00 : ℝ
  a01 : ℝ
  a02 : ℝ
  a10 : ℝ
  a11 : ℝ
  a12 : ℝ
  a20 : ℝ
  a21 : ℝ
  a22 : ℝ

/-- First column of a matrix (`Gamma[:,0]`). -/
def Mat3.col0 (A : Mat3) : Vec3 := ⟨A.a00, A.a10, A.a20⟩

/-- Second column of a matrix (`Gamma[:,1]`). -/
def Mat3.col1 (A : Mat3) : Vec3 := ⟨A.a01, A.a11, A.a21⟩

/-- Third column of a matrix (`Gamma[:,2]`). -/
def Mat3.col2 (A : Mat3) : Vec3 := ⟨A.a02, A.a12, A.a22⟩

/-- Matrix product.  The source helper `MMul(A, B) = inner(A, transpose(B))`
is exactly the ordinary matrix product `A * B`. -/
def Mat3.mul (A B : Mat3) : Mat3 :=
  ⟨A.a00 * B.a00 + A.a01 * B.a10 + A.a02 * B.a20,
   A.a00 * B.a01 + A.a01 * B.a11 + A.a02 * B.a21,
   A.a00 * B.a02 + A.a01 * B.a12 + A.a02 * B.a22,
   A.a10 * B.a00 + A.a11 * B.a10 + A.a12 * B.a20,
   A.a10 * B.a01 + A.a11 * B.a11 + A.a12 * B.a21,
   A.a10 * B.a02 + A.a11 * B.a12 + A.a12 * B.a22,
   A.a20 * B.a00 + A.a21 * B.a10 + A.a22 * B.a20,
   A.a20 * B.a01 + A.a21 * B.a11 + A.a22 * B.a21,
   A.a20 * B.a02 + A.a21 * B.a12 + A.a22 * B.a22⟩

/-- The source helper `MMul`. -/
def MMul (A B : Mat3) : Mat3 := Mat3.mul A B

/-- Matrix transpose (`numpy.transpose`). -/
def Mat3.transpose (A : Mat3) : Mat3 :=
  ⟨A.a00, A.a10, A.a20, A.a01, A.a11, A.a21, A.a02, A.a12, A.a22⟩

/-- Matrix-vector product (the source's `MMul(Ht, reshape(gamma2, (3, 1)))`). -/
def Mat3.mulVec (A : Mat3) (v : Vec3) : Vec3 :=
  ⟨A.a00 * v.x + A.a01 * v.y + A.a02 * v.z,
   A.a10 * v.x + A.a11 * v.y + A.a12 * v.z,
   A.a20 * v.x + A.a21 * v.y + A.a22 * v.z⟩

/-- Componentwise sum of matrices. -/
def Mat3.add (A B : Mat3) : Mat3 :=
  ⟨A.a00 + B.a00, A.a01 + B.a01, A.a02 + B.a02,
   A.a10 + B.a10, A.a11 + B.a11, A.a12 + B.a12,
   A.a20 + B.a20, A.a21 + B.a21, A.a22 + B.a22⟩

/-- The zero matrix. -/
def Mat3.zero : Mat3 := ⟨0, 0, 0, 0, 0, 0, 0, 0, 0⟩

/-- Componentwise division of a matrix by a scalar. -/
def Mat3.sdiv (A : Mat3) (r : ℝ) : Mat3 :=
  ⟨A.a00 / r, A.a01 / r, A.a02 / r, A.a10 / r, A.a11 / r, A.a12 / r,
   A.a20 / r, A.a21 / r, A.a22 / r⟩

/-- Outer product `reshape(x,(3,1)) * reshape(y,(1,3))`. -/
def outer (a b : Vec3) : Mat3 :=
  ⟨a.x * b.x, a.x * b.y, a.x * b.z,
   a.y * b.x, a.y * b.y, a.y * b.z,
   a.z * b.x, a.z * b.y, a.z * b.z⟩

/-- Sum of a list of 3-vectors. -/
def vsum (l : List Vec3) : Vec3 := l.foldr vadd ⟨0, 0, 0⟩

/-- Sum of a list of matrices. -/
def msum (l : List Mat3) : Mat3 := l.foldr Mat3.add Mat3.zero

/-- A vector in 2-space, used for the eigendecomposition of the 2 by 2
sub-block in the moment estimator. -/
structure Vec2 where
  x : ℝ
  y : ℝ

/-- A 2 by 2 real matrix. -/
structure Mat2 where
  a00 : ℝ
  a01 : ℝ
  a10 : ℝ
  a11 : ℝ

/-- First column of a 2 by 2 matrix (`eigvects[:,0]`). -/
def Mat2.col0 (A : Mat2) : Vec2 := ⟨A.a00, A.a10⟩

/-- Second column of a 2 by 2 matrix (`eigvects[:,1]`). -/
def Mat2.col1 (A : Mat2) : Vec2 := ⟨A.a01, A.a11⟩

/-- 2 by 2 matrix-vector product. -/
def Mat2.mulVec (A : Mat2) (v : Vec2) : Vec2 :=
  ⟨A.a00 * v.x + A.a01 * v.y, A.a10 * v.x + A.a11 * v.y⟩

/-- Inner product in 2-space. -/
def dot2 (a b : Vec2) : ℝ := a.x * b.x + a.y * b.y

/-- `numpy.arctan2 y x`: the angle in `(-pi, pi]` of the point `(x, y)`,
with `arctan2 0 0 = 0`.  `Complex.arg` has exactly this convention. -/
def atan2 (y x : ℝ) : ℝ := Complex.arg (x + y * Complex.I)

/-- The Kent distribution entity: the orientation frame `gamma1, gamma2,
gamma3`, the concentration `kappa`, the ovalness `beta`, and the spherical
angles that `__init__` recovers from the frame. -/
structure KentDistribution where
  gamma1 : Vec3
  gamma2 : Vec3
  gamma3 : Vec3
  kappa : ℝ
  beta : ℝ
  theta : ℝ
  phi : ℝ
  psi : ℝ

namespace KentDistribution

/-- `KentDistribution.minimum_value_for_kappa = 1E-6`. -/
def minimum_value_for_kappa : ℝ := 1e-6

/-- `create_matrix_H(theta, phi)`. -/
def create_matrix_H (theta phi : ℝ) : Mat3 :=
  ⟨Real.cos theta, -Real.sin theta, 0,
   Real.sin theta * Real.cos phi, Real.cos theta * Real.cos phi, -Real.sin phi,
   Real.sin theta * Real.sin phi, Real.cos theta * Real.sin phi, Real.cos phi⟩

/-- `create_matrix_Ht(theta, phi)`. -/
def create_matrix_Ht (theta phi : ℝ) : Mat3 := (create_matrix_H theta phi).transpose

/-- `create_matrix_K(psi)`. -/
def create_matrix_K (psi : ℝ) : Mat3 :=
  ⟨1, 0, 0,
   0, Real.cos psi, -Real.sin psi,
   0, Real.sin psi, Real.cos psi⟩

/-- `create_matrix_Kt(psi)`. -/
def create_matrix_Kt (psi : ℝ) : Mat3 := (create_matrix_K psi).transpose

/-- `create_matrix_Gamma(theta, phi, psi) = MMul(H, K)`. -/
def create_matrix_Gamma (theta phi psi : ℝ) : Mat3 :=
  MMul (create_matrix_H theta phi) (create_matrix_K psi)

/-- `create_matrix_Gammat(theta, phi, psi)`. -/
def create_matrix_Gammat (theta phi psi : ℝ) : Mat3 :=
  (create_matrix_Gamma theta phi psi).transpose

/-- `spherical_coordinates_to_gammas(theta, phi, psi)`: the columns of
`Gamma`. -/
def spherical_coordinates_to_gammas (theta phi psi : ℝ) : Vec3 × Vec3 × Vec3 :=
  let Gamma := create_matrix_Gamma theta phi psi
  (Gamma.col0, Gamma.col1, Gamma.col2)

/-- `gamma1_to_spherical_coordinates(gamma1) = (arccos(gamma1[0]),
arctan2(gamma1[2], gamma1[1]))`. -/
def gamma1_to_spherical_coordinates (gamma1 : Vec3) : ℝ × ℝ :=
  (Real.arccos gamma1.x, atan2 gamma1.z gamma1.y)

/-- `gammas_to_spherical_coordinates(gamma1, gamma2)`. -/
def gammas_to_spherical_coordinates (gamma1 gamma2 : Vec3) : ℝ × ℝ × ℝ :=
  let tp := gamma1_to_spherical_coordinates gamma1
  let u := (create_matrix_Ht tp.1 tp.2).mulVec gamma2
  (tp.1, tp.2, atan2 u.z u.y)

/-- `KentDistribution.__init__`: store the frame and the two shape
parameters, and recover `theta, phi, psi` from `gamma1, gamma2`.  (The
`len(gamma) == 3` assertions always hold for `Vec3` values; the mutable
sample caches carry no mathematical content and are omitted.) -/
def make (gamma1 gamma2 gamma3 : Vec3) (kappa beta : ℝ) : KentDistribution :=
  let a := gammas_to_spherical_coordinates gamma1 gamma2
  ⟨gamma1, gamma2, gamma3, kappa, beta, a.1, a.2.1, a.2.2⟩

end KentDistribution

/-- `kent(theta, phi, psi, kappa, beta)`: construction from angles. -/
def kent (theta phi psi kappa beta : ℝ) : KentDistribution :=
  let g := KentDistribution.spherical_coordinates_to_gammas theta phi psi
  KentDistribution.make g.1 g.2.1 g.2.2 kappa beta

/-- `kent2(gamma1, gamma2, gamma3, kappa, beta)`: construction from an
orthonormal triple.  The three `assert abs(inner(..)) < 1E-10` statements
are modelled by `none` on violation. -/
def kent2 (gamma1 gamma2 gamma3 : Vec3) (kappa beta : ℝ) : Option KentDistribution :=
  if |dot gamma1 gamma2| < 1e-10 ∧ |dot gamma2 gamma3| < 1e-10 ∧ |dot gamma3 gamma1| < 1e-10
  then some (KentDistribution.make gamma1 gamma2 gamma3 kappa beta)
  else none

/-- `__generate_arbitrary_orthogonal_unit_vector(x)`: the largest-norm cross
product of `x` with the three coordinate axes, normalized.  `numpy.argmax`
returns the first index attaining the maximum. -/
def generate_arbitrary_orthogonal_unit_vector (x : Vec3) : Vec3 :=
  let v1 := cross x ⟨1, 0, 0⟩
  let v2 := cross x ⟨0, 1, 0⟩
  let v3 := cross x ⟨0, 0, 1⟩
  let v1n := norm v1
  let v2n := norm v2
  let v3n := norm v3
  let v := if v2n ≤ v1n ∧ v3n ≤ v1n then v1 else if v3n ≤ v2n then v2 else v3
  vdiv v (norm v)

/-- `kent3(A, B)`: two-vector construction, `A = gamma1*kappa`,
`B = gamma2*beta`; the axes are canonicalized through a round trip via the
spherical angles.  The source performs no validation of `A` or `B`; the
`Option` result (always `some`) records that no construction-time failure
path exists. -/
def kent3 (A B : Vec3) : Option KentDistribution :=
  let kappa := norm A
  let beta := norm B
  let gamma1 := vdiv A kappa
  let gamma2 :=
    if beta = 0 then generate_arbitrary_orthogonal_unit_vector gamma1 else vdiv B beta
  let a := KentDistribution.gammas_to_spherical_coordinates gamma1 gamma2
  let g := KentDistribution.spherical_coordinates_to_gammas a.1 a.2.1 a.2.2
  some (KentDistribution.make g.1 g.2.1 g.2.2 kappa beta)

/-- `kent4(Gamma, kappa, beta)`: construction from a rotation matrix;
delegates to `kent2` on the columns. -/
def kent4 (Gamma : Mat3) (kappa beta : ℝ) : Option KentDistribution :=
  kent2 Gamma.col0 Gamma.col1 Gamma.col2 kappa beta

/-- One term of the `normalize` series for `b > 0`, exactly as computed in
the loop body: `exp(log(b)*2*j + log(0.5*k)*(-2*j-0.5)) * I(2*j+0.5, k)`,
then divided by `Gamma(j+1)` and multiplied by `Gamma(j+0.5)`.  `I` is the
external modified Bessel function `scipy.special.iv`. -/
def seriesTerm (I : ℝ → ℝ → ℝ) (k b : ℝ) (j : ℕ) : ℝ :=
  Real.exp (Real.log b * (2 * (j : ℝ)) + Real.log (0.5 * k) * (-2 * (j : ℝ) - 0.5)) *
      I (2 * (j : ℝ) + 0.5) k / Real.Gamma ((j : ℝ) + 1) * Real.Gamma ((j : ℝ) + 0.5)

/-- The `while True` accumulation loop of `normalize`, with explicit fuel:
add the term for the current `j`, increment `j`, stop when
`abs(a) < abs(result)*1E-12 and j > 5`. -/
def normalizeLoop (I : ℝ → ℝ → ℝ) (k b : ℝ) : ℕ → ℕ → ℝ → Option ℝ
  | 0, _, _ => none
  | fuel + 1, j, result =>
    let a := seriesTerm I k b j
    let result2 := result + a
    if |a| < |result2| * 1e-12 ∧ 5 < j + 1 then some result2
    else normalizeLoop I k b fuel (j + 1) result2

/-- `KentDistribution.normalize` on the parameter pair `(k, b)`: the closed
single-term `j = 0` formula when `b == 0`, otherwise the series loop; the
result is multiplied by `2*pi`.  (The process-wide memoization cache is
keyed by the exact pair and is semantically transparent.) -/
def normalizeConst (I : ℝ → ℝ → ℝ) (fuel : ℕ) (k b : ℝ) : Option ℝ :=
  if b = 0 then
    some (2 * π *
      ((0.5 * k) ^ (-2 * (0 : ℝ) - 0.5) * I (2 * (0 : ℝ) + 0.5) k /
          Real.Gamma ((0 : ℝ) + 1) * Real.Gamma ((0 : ℝ) + 0.5)))
  else (normalizeLoop I k b fuel 0 0).map (fun r => 2 * π * r)

namespace KentDistribution

/-- The `normalize` method of a distribution instance. -/
def normalize (I : ℝ → ℝ → ℝ) (fuel : ℕ) (d : KentDistribution) : Option ℝ :=
  normalizeConst I fuel d.kappa d.beta

/-- `log_normalize` along its non-exceptional path: the logarithm of the
series normalizer.  (The `OverflowError`/`RuntimeWarning` fallback concerns
IEEE-754 overflow and is outside the real-number embedding.) -/
def log_normalize (I : ℝ → ℝ → ℝ) (fuel : ℕ) (d : KentDistribution) : Option ℝ :=
  (d.normalize I fuel).map Real.log

/-- The per-point unnormalized log density computed by `log_pdf`:
`f = k*g1x + b*(g2x**2 - g3x**2)`. -/
def log_pdf_core (d : KentDistribution) (p : Vec3) : ℝ :=
  let g1x := dot d.gamma1 p
  let g2x := dot d.gamma2 p
  let g3x := dot d.gamma3 p
  d.kappa * g1x + d.beta * (g2x ^ 2 - g3x ^ 2)

/-- `log_pdf(xs, normalize)`: the per-point value over a batch (numpy
broadcasting over the batch axes is modelled by `List.map`), minus the log
normalizer when `normalize` is true. -/
def log_pdf (I : ℝ → ℝ → ℝ) (fuel : ℕ) (d : KentDistribution) (xs : List Vec3)
    (normalize : Bool) : Option (List ℝ) :=
  if normalize then
    (d.log_normalize I fuel).map (fun ln => xs.map (fun p => d.log_pdf_core p - ln))
  else some (xs.map (fun p => d.log_pdf_core p))

/-- `pdf(xs, normalize) = exp(log_pdf(xs, normalize))`. -/
def pdf (I : ℝ → ℝ → ℝ) (fuel : ℕ) (d : KentDistribution) (xs : List Vec3)
    (normalize : Bool) : Option (List ℝ) :=
  (d.log_pdf I fuel xs normalize).map (List.map Real.exp)

/-- `log_likelihood(xs)`: the sum of the normalized log densities. -/
def log_likelihood (I : ℝ → ℝ → ℝ) (fuel : ℕ) (d : KentDistribution)
    (xs : List Vec3) : Option ℝ :=
  (d.log_pdf I fuel xs true).map List.sum

/-- `log_pdf_max(normalize)`: the closed-form maximum of the log density. -/
def log_pdf_max (I : ℝ → ℝ → ℝ) (fuel : ℕ) (d : KentDistribution)
    (normalize : Bool) : Option ℝ :=
  let x0 : ℝ := if d.beta = 0 then 1 else d.kappa * 1.0 / (2 * d.beta)
  let x1 : ℝ := if 1 < x0 then 1 else x0
  let fmax := d.kappa * x1 + d.beta * (1 - x1 ^ 2)
  if normalize then (d.log_normalize I fuel).map (fun ln => fmax - ln) else some fmax

/-- `pdf_max(normalize) = exp(log_pdf_max(normalize))`. -/
def pdf_max (I : ℝ → ℝ → ℝ) (fuel : ℕ) (d : KentDistribution)
    (normalize : Bool) : Option ℝ :=
  (d.log_pdf_max I fuel normalize).map Real.exp

end KentDistribution

/-- `numpy.average(xs, 0)`: componentwise mean of the batch. -/
def xbarFn (xs : List Vec3) : Vec3 := vdiv (vsum xs) (xs.length : ℝ)

/-- The dispersion matrix `S = average(outer(x, x))` of `kent_me`. -/
def SFn (xs : List Vec3) : Mat3 := (msum (xs.map (fun p => outer p p))).sdiv (xs.length : ℝ)

/-- The unit mean direction `gamma1 = xbar/norm(xbar)` of `kent_me`. -/
def gamma1Fn (xs : List Vec3) : Vec3 := vdiv (xbarFn xs) (norm (xbarFn xs))

/-- The spherical angles of the mean direction in `kent_me`. -/
def tpFn (xs : List Vec3) : ℝ × ℝ :=
  KentDistribution.gamma1_to_spherical_coordinates (gamma1Fn xs)

/-- The matrix `H` of `kent_me`. -/
def HFn (xs : List Vec3) : Mat3 := KentDistribution.create_matrix_H (tpFn xs).1 (tpFn xs).2

/-- The matrix `Ht` of `kent_me`. -/
def HtFn (xs : List Vec3) : Mat3 := KentDistribution.create_matrix_Ht (tpFn xs).1 (tpFn xs).2

/-- `B = MMul(Ht, MMul(S, H))` of `kent_me`. -/
def BFn (xs : List Vec3) : Mat3 := MMul (HtFn xs) (MMul (SFn xs) (HFn xs))

/-- The lower 2 by 2 sub-block `B[1:,1:]` handed to the eigendecomposition. -/
def B2Fn (xs : List Vec3) : Mat2 := ⟨(BFn xs).a11, (BFn xs).a12, (BFn xs).a21, (BFn xs).a22⟩

/-- The eigenvalue/eigenvector pair after the descending-order swap of
`kent_me` (`eigvals[0], eigvals[1] = eigvals[1], eigvals[0]` together with
`eigvects = eigvects[:,::-1]` when `eigvals[0] < eigvals[1]`). -/
def swFn (eig2 : Mat2 → (ℝ × ℝ) × Mat2) (xs : List Vec3) : (ℝ × ℝ) × Mat2 :=
  let ev := eig2 (B2Fn xs)
  if ev.1.1 < ev.1.2 then
    ((ev.1.2, ev.1.1), (⟨ev.2.a01, ev.2.a00, ev.2.a11, ev.2.a10⟩ : Mat2))
  else ev

/-- The matrix `K` of `kent_me`: identity with the ordered eigenvectors in
the lower block. -/
def KFn (eig2 : Mat2 → (ℝ × ℝ) × Mat2) (xs : List Vec3) : Mat3 :=
  ⟨1, 0, 0,
   0, (swFn eig2 xs).2.a00, (swFn eig2 xs).2.a01,
   0, (swFn eig2 xs).2.a10, (swFn eig2 xs).2.a11⟩

/-- `G = MMul(H, K)` of `kent_me`. -/
def GFn (eig2 : Mat2 → (ℝ × ℝ) × Mat2) (xs : List Vec3) : Mat3 :=
  MMul (HFn xs) (KFn eig2 xs)

/-- `T = MMul(Gt, MMul(S, G))` of `kent_me`. -/
def TFn (eig2 : Mat2 → (ℝ × ℝ) × Mat2) (xs : List Vec3) : Mat3 :=
  MMul (GFn eig2 xs).transpose (MMul (SFn xs) (GFn eig2 xs))

/-- `r1 = norm(xbar)` of `kent_me`. -/
def r1Fn (xs : List Vec3) : ℝ := norm (xbarFn xs)

/-- `r2 = T[1,1] - T[2,2]` of `kent_me`. -/
def r2Fn (eig2 : Mat2 → (ℝ × ℝ) × Mat2) (xs : List Vec3) : ℝ :=
  (TFn eig2 xs).a11 - (TFn eig2 xs).a22

/-- The `kappa` estimate of `kent_me`, clamped to the minimum floor. -/
def kappaFn (eig2 : Mat2 → (ℝ × ℝ) × Mat2) (xs : List Vec3) : ℝ :=
  max KentDistribution.minimum_value_for_kappa
    (1.0 / (2.0 - 2.0 * r1Fn xs - r2Fn eig2 xs) + 1.0 / (2.0 - 2.0 * r1Fn xs + r2Fn eig2 xs))

/-- The `beta` estimate of `kent_me`. -/
def betaFn (eig2 : Mat2 → (ℝ × ℝ) × Mat2) (xs : List Vec3) : ℝ :=
  0.5 * (1.0 / (2.0 - 2.0 * r1Fn xs - r2Fn eig2 xs) - 1.0 / (2.0 - 2.0 * r1Fn xs + r2Fn eig2 xs))

/-- `kent_me(xs)` with the external symmetric 2 by 2 eigendecomposition
routine `eig2` (`scipy.linalg.eig` restricted to `B[1:,1:]`, eigenvalues
already real) passed as a parameter: moment estimation of the frame via the
pipeline above, then `kent4(G, kappa, beta)`. -/
def kent_me (eig2 : Mat2 → (ℝ × ℝ) × Mat2) (xs : List Vec3) : Option KentDistribution :=
  kent4 (GFn eig2 xs) (kappaFn eig2 xs) (betaFn eig2 xs)

/-- The optimizer variable vector of `kent_mle`:
`x = [theta, phi, psi, fudge_kappa, fudge_beta]`. -/
structure X5 where
  theta : ℝ
  phi : ℝ
  psi : ℝ
  fudge_kappa : ℝ
  fudge_beta : ℝ

/-- `generate_k` of `kent_mle`: the candidate distribution at an iterate,
with `kappa = min_kappa + abs(fudge_kappa)` and `beta = abs(fudge_beta)`. -/
def generate_k (v : X5) : KentDistribution :=
  kent v.theta v.phi v.psi (KentDistribution.minimum_value_for_kappa + |v.fudge_kappa|)
    |v.fudge_beta|

/-- `minus_log_likelihood` of `kent_mle`: the objective
`-generate_k(*x).log_likelihood(xs) / len(xs)`. -/
def minus_log_likelihood (I : ℝ → ℝ → ℝ) (fuel : ℕ) (xs : List Vec3) (v : X5) : Option ℝ :=
  ((generate_k v).log_likelihood I fuel xs).map (fun L => -L / (xs.length : ℝ))

/-- The first inequality constraint handed to the optimizer:
`abs(x[-2]) - 2*abs(x[-1])`. -/
def cons1 (v : X5) : ℝ := |v.fudge_kappa| - 2 * |v.fudge_beta|

/-- The second inequality constraint handed to the optimizer: `x[-2]`. -/
def cons2 (v : X5) : ℝ := v.fudge_kappa

/-- The third inequality constraint handed to the optimizer: `x[-1]`. -/
def cons3 (v : X5) : ℝ := v.fudge_beta

/-- Partial sums of the raw loop terms of `normalize`. -/
def seriesSum (I : ℝ → ℝ → ℝ) (k b : ℝ) (n : ℕ) : ℝ :=
  ∑ j in Finset.range n, seriesTerm I k b j

/-- One term of the `normalize` series in the closed form stated by the
specification: `Gamma(j+0.5)/Gamma(j+1) * beta^(2j) * (kappa/2)^(-2j-0.5) *
I(2j+0.5, kappa)`. -/
def specTerm (I : ℝ → ℝ → ℝ) (k b : ℝ) (j : ℕ) : ℝ :=
  Real.Gamma ((j : ℝ) + 0.5) / Real.Gamma ((j : ℝ) + 1) * b ^ (2 * j) *
    (k / 2) ^ (-2 * (j : ℝ) - 0.5) * I (2 * (j : ℝ) + 0.5) k

/-- Partial sums of the specification-form terms. -/
def specSum (I : ℝ → ℝ → ℝ) (k b : ℝ) (n : ℕ) : ℝ :=
  ∑ j in Finset.range n, specTerm I k b j

/-- The loop's stopping condition, read after `n` terms have been summed:
at least 6 terms, and the newest term is below 1E-12 of the running sum (in
specification form). -/
def specStop (I : ℝ → ℝ → ℝ) (k b : ℝ) (n : ℕ) : Prop :=
  6 ≤ n ∧ |specTerm I k b (n - 1)| < |specSum I k b n| * 1e-12

/-- The loop's stopping condition in terms of the raw loop terms. -/
def seriesStop (I : ℝ → ℝ → ℝ) (k b : ℝ) (n : ℕ) : Prop :=
  6 ≤ n ∧ |seriesTerm I k b (n - 1)| < |seriesSum I k b n| * 1e-12

/-- Scalar multiple in 2-space. -/
def smul2 (r : ℝ) (v : Vec2) : Vec2 := ⟨r * v.x, r * v.y⟩

/-- The contract of the external symmetric eigendecomposition routine
(`scipy.linalg.eig` on the symmetric 2 by 2 sub-block): the two returned
columns are unit eigenvectors for the two returned (real) eigenvalues, and
they are mutually orthogonal. -/
def EigContract (M : Mat2) (ev : (ℝ × ℝ) × Mat2) : Prop :=
  M.mulVec ev.2.col0 = smul2 ev.1.1 ev.2.col0 ∧
  M.mulVec ev.2.col1 = smul2 ev.1.2 ev.2.col1 ∧
  dot2 ev.2.col0 ev.2.col0 = 1 ∧ dot2 ev.2.col1 ev.2.col1 = 1 ∧
  dot2 ev.2.col0 ev.2.col1 = 0

end

end Kent

namespace Kent

open Real KentDistribution

/-- Cosine of `arctan2 y x` when `(x, y)` lies on the circle of radius `r`. -/
theorem atan2_cos {y x r : ℝ} (hr : 0 < r) (h : x ^ 2 + y ^ 2 = r ^ 2) :
    Real.cos (atan2 y x) = x / r := by
  have habs : Complex.abs (x + y * Complex.I) = r := by
    rw [Complex.abs_apply, Complex.normSq_add_mul_I, h, Real.sqrt_sq hr.le]
  have hz : (x + (y : ℂ) * Complex.I) ≠ 0 := by
    intro h0
    rw [h0, map_zero] at habs
    exact hr.ne habs
  rw [atan2, Complex.cos_arg hz, habs]
  simp

/-- Sine of `arctan2 y x` when `(x, y)` lies on the circle of radius `r`. -/
theorem atan2_sin {y x r : ℝ} (hr : 0 < r) (h : x ^ 2 + y ^ 2 = r ^ 2) :
    Real.sin (atan2 y x) = y / r := by
  have habs : Complex.abs (x + y * Complex.I) = r := by
    rw [Complex.abs_apply, Complex.normSq_add_mul_I, h, Real.sqrt_sq hr.le]
  rw [atan2, Complex.sin_arg, habs]
  simp

/-- `arctan2 0 0 = 0`, the numpy convention at the degenerate point. -/
theorem atan2_zero : atan2 0 0 = 0 := by
  simp [atan2, Complex.arg_zero]

/-- The frame produced from angles, written out componentwise. -/
theorem stg_eq (θ φ ψ : ℝ) :
    spherical_coordinates_to_gammas θ φ ψ =
      (⟨Real.cos θ, Real.sin θ * Real.cos φ, Real.sin θ * Real.sin φ⟩,
       ⟨-(Real.sin θ * Real.cos ψ),
        Real.cos θ * Real.cos φ * Real.cos ψ - Real.sin φ * Real.sin ψ,
        Real.cos θ * Real.sin φ * Real.cos ψ + Real.cos φ * Real.sin ψ⟩,
       ⟨Real.sin θ * Real.sin ψ,
        -(Real.cos θ * Real.cos φ * Real.sin ψ) - Real.sin φ * Real.cos ψ,
        -(Real.cos θ * Real.sin φ * Real.sin ψ) + Real.cos φ * Real.cos ψ⟩) := by
  simp only [spherical_coordinates_to_gammas, create_matrix_Gamma, create_matrix_H,
    create_matrix_K, MMul, Mat3.mul, Mat3.col0, Mat3.col1, Mat3.col2, Prod.mk.injEq,
    Vec3.mk.injEq]
  refine ⟨⟨by ring, by ring, by ring⟩, ⟨by ring, by ring, by ring⟩, by ring, by ring, by ring⟩

/-- Two angle triples whose sines and cosines differ by a common sign
`ε` produce the same frame. -/
theorem stg_congr (θ2 φ2 ψ2 θ φ ψ ε : ℝ) (hε : ε * ε = 1)
    (hct : Real.cos θ2 = Real.cos θ) (hst : Real.sin θ2 = ε * Real.sin θ)
    (hcp : Real.cos φ2 = ε * Real.cos φ) (hsp : Real.sin φ2 = ε * Real.sin φ)
    (hcs : Real.cos ψ2 = ε * Real.cos ψ) (hss : Real.sin ψ2 = ε * Real.sin ψ) :
    spherical_coordinates_to_gammas θ2 φ2 ψ2 = spherical_coordinates_to_gammas θ φ ψ := by
  rw [stg_eq, stg_eq, hct, hst, hcp, hsp, hcs, hss]
  simp only [Prod.mk.injEq, Vec3.mk.injEq]
  refine ⟨⟨by ring, by linear_combination Real.sin θ * Real.cos φ * hε,
    by linear_combination Real.sin θ * Real.sin φ * hε⟩,
    ⟨by linear_combination -(Real.sin θ * Real.cos ψ) * hε,
     by linear_combination (Real.cos θ * Real.cos φ * Real.cos ψ - Real.sin φ * Real.sin ψ) * hε,
     by linear_combination (Real.cos θ * Real.sin φ * Real.cos ψ + Real.cos φ * Real.sin ψ) * hε⟩,
    by linear_combination Real.sin θ * Real.sin ψ * hε,
    by linear_combination (-(Real.cos θ * Real.cos φ * Real.sin ψ) - Real.sin φ * Real.cos ψ) * hε,
    by linear_combination (-(Real.cos θ * Real.sin φ * Real.sin ψ) + Real.cos φ * Real.cos ψ) * hε⟩

/-- Reconstruction at a pole of the sphere (`sin θ = 0`): the recovered
angles `(θ2, 0, ψ2)` with `ψ2` absorbing `φ` reproduce the frame. -/
theorem stg_pole (θ2 φ2 ψ2 θ φ ψ : ℝ) (hs0 : Real.sin θ = 0)
    (hct : Real.cos θ2 = Real.cos θ) (hst : Real.sin θ2 = 0)
    (hcp : Real.cos φ2 = 1) (hsp : Real.sin φ2 = 0)
    (hcs : Real.cos ψ2 = Real.cos φ * Real.cos ψ - Real.cos θ * Real.sin φ * Real.sin ψ)
    (hss : Real.sin ψ2 = Real.cos θ * Real.sin φ * Real.cos ψ + Real.cos φ * Real.sin ψ) :
    spherical_coordinates_to_gammas θ2 φ2 ψ2 = spherical_coordinates_to_gammas θ φ ψ := by
  have hc2 : Real.cos θ * Real.cos θ = 1 := by
    have := Real.sin_sq_add_cos_sq θ
    nlinarith [hs0]
  rw [stg_eq, stg_eq, hct, hst, hcp, hsp, hcs, hss, hs0]
  simp only [Prod.mk.injEq, Vec3.mk.injEq]
  refine ⟨⟨by ring, by ring, by ring⟩,
    ⟨by ring, by linear_combination (-(Real.sin φ * Real.sin ψ)) * hc2,
     by ring⟩,
    by ring,
    by linear_combination (-(Real.sin φ * Real.cos ψ)) * hc2,
    by ring⟩

/-- Round trip: the spherical angles recovered by
`gammas_to_spherical_coordinates` from the first two axes of a frame that
was built from angles reproduce exactly that frame, for all input angles
(including the poles, where `arctan2(0, 0) = 0`). -/
theorem spherical_roundtrip (θ φ ψ : ℝ) (a : ℝ × ℝ × ℝ)
    (ha : a = gammas_to_spherical_coordinates (spherical_coordinates_to_gammas θ φ ψ).1
      (spherical_coordinates_to_gammas θ φ ψ).2.1) :
    spherical_coordinates_to_gammas a.1 a.2.1 a.2.2 = spherical_coordinates_to_gammas θ φ ψ := by
  have hpyθ : Real.sin θ ^ 2 + Real.cos θ ^ 2 = 1 := Real.sin_sq_add_cos_sq θ
  have hpyφ : Real.sin φ ^ 2 + Real.cos φ ^ 2 = 1 := Real.sin_sq_add_cos_sq φ
  have hpyψ : Real.sin ψ ^ 2 + Real.cos ψ ^ 2 = 1 := Real.sin_sq_add_cos_sq ψ
  have hg1 : (spherical_coordinates_to_gammas θ φ ψ).1 =
      ⟨Real.cos θ, Real.sin θ * Real.cos φ, Real.sin θ * Real.sin φ⟩ := by rw [stg_eq]
  have hg2 : (spherical_coordinates_to_gammas θ φ ψ).2.1 =
      ⟨-(Real.sin θ * Real.cos ψ),
       Real.cos θ * Real.cos φ * Real.cos ψ - Real.sin φ * Real.sin ψ,
       Real.cos θ * Real.sin φ * Real.cos ψ + Real.cos φ * Real.sin ψ⟩ := by rw [stg_eq]
  subst ha
  rw [hg1, hg2]
  simp only [gammas_to_spherical_coordinates, gamma1_to_spherical_coordinates]
  set θ2 := Real.arccos (Real.cos θ) with hθ2
  set φ2 := atan2 (Real.sin θ * Real.sin φ) (Real.sin θ * Real.cos φ) with hφ2
  set v2 : Vec3 := ⟨-(Real.sin θ * Real.cos ψ),
       Real.cos θ * Real.cos φ * Real.cos ψ - Real.sin φ * Real.sin ψ,
       Real.cos θ * Real.sin φ * Real.cos ψ + Real.cos φ * Real.sin ψ⟩ with hv2
  set u : Vec3 := (create_matrix_Ht θ2 φ2).mulVec v2 with hu
  have hct : Real.cos θ2 = Real.cos θ :=
    Real.cos_arccos (Real.neg_one_le_cos θ) (Real.cos_le_one θ)
  have hst : Real.sin θ2 = |Real.sin θ| := by
    rw [hθ2, Real.sin_arccos, show 1 - Real.cos θ ^ 2 = Real.sin θ ^ 2 by linarith,
      Real.sqrt_sq_eq_abs]
  have huy : u.y = -Real.sin θ2 * v2.x + Real.cos θ2 * Real.cos φ2 * v2.y +
      Real.cos θ2 * Real.sin φ2 * v2.z := by
    rw [hu]
    simp only [create_matrix_Ht, create_matrix_H, Mat3.transpose, Mat3.mulVec]
  have huz : u.z = -Real.sin φ2 * v2.y + Real.cos φ2 * v2.z := by
    rw [hu]
    simp only [create_matrix_Ht, create_matrix_H, Mat3.transpose, Mat3.mulVec]
    ring
  rcases lt_trichotomy (Real.sin θ) 0 with hneg | hzero | hpos
  · -- sin θ < 0 : all recovered sines and cosines pick up a sign
    have hsne : Real.sin θ ≠ 0 := ne_of_lt hneg
    have hr : (0 : ℝ) < -Real.sin θ := by linarith
    have hst2 : Real.sin θ2 = -Real.sin θ := by rw [hst, abs_of_neg hneg]
    have hcp : Real.cos φ2 = -Real.cos φ := by
      have h := atan2_cos hr (by linear_combination Real.sin θ ^ 2 * hpyφ :
        (Real.sin θ * Real.cos φ) ^ 2 + (Real.sin θ * Real.sin φ) ^ 2 = (-Real.sin θ) ^ 2)
      rw [hφ2, h, div_neg, mul_comm, mul_div_assoc, div_self hsne, mul_one]
    have hsp : Real.sin φ2 = -Real.sin φ := by
      have h := atan2_sin hr (by linear_combination Real.sin θ ^ 2 * hpyφ :
        (Real.sin θ * Real.cos φ) ^ 2 + (Real.sin θ * Real.sin φ) ^ 2 = (-Real.sin θ) ^ 2)
      rw [hφ2, h, div_neg, mul_comm, mul_div_assoc, div_self hsne, mul_one]
    have huy2 : u.y = -Real.cos ψ := by
      rw [huy, hct, hst2, hcp, hsp, hv2]
      dsimp only
      linear_combination (-(Real.cos ψ)) * hpyθ - Real.cos θ ^ 2 * Real.cos ψ * hpyφ
    have huz2 : u.z = -Real.sin ψ := by
      rw [huz, hcp, hsp, hv2]
      dsimp only
      linear_combination (-(Real.sin ψ)) * hpyφ
    have h1 : (-Real.cos ψ) ^ 2 + (-Real.sin ψ) ^ 2 = (1 : ℝ) ^ 2 := by
      linear_combination hpyψ
    have hcs : Real.cos (atan2 u.z u.y) = -Real.cos ψ := by
      rw [huy2, huz2, atan2_cos one_pos h1, div_one]
    have hss : Real.sin (atan2 u.z u.y) = -Real.sin ψ := by
      rw [huy2, huz2, atan2_sin one_pos h1, div_one]
    exact stg_congr θ2 φ2 (atan2 u.z u.y) θ φ ψ (-1) (by ring) hct
      (by rw [hst2]; ring) (by rw [hcp]; ring) (by rw [hsp]; ring)
      (by rw [hcs]; ring) (by rw [hss]; ring)
  · -- sin θ = 0 : the pole; φ2 collapses to 0 and ψ2 absorbs φ
    have hc2 : Real.cos θ * Real.cos θ = 1 := by nlinarith [hzero]
    have hst2 : Real.sin θ2 = 0 := by rw [hst, hzero, abs_zero]
    have hφ0 : φ2 = 0 := by rw [hφ2, hzero, zero_mul, zero_mul, atan2_zero]
    have hcp : Real.cos φ2 = 1 := by rw [hφ0, Real.cos_zero]
    have hsp : Real.sin φ2 = 0 := by rw [hφ0, Real.sin_zero]
    have huy2 : u.y = Real.cos φ * Real.cos ψ - Real.cos θ * Real.sin φ * Real.sin ψ := by
      rw [huy, hct, hst2, hcp, hsp, hv2]
      dsimp only
      linear_combination Real.cos φ * Real.cos ψ * hc2
    have huz2 : u.z = Real.cos θ * Real.sin φ * Real.cos ψ + Real.cos φ * Real.sin ψ := by
      rw [huz, hcp, hsp, hv2]
      dsimp only
      ring
    have h1 : (Real.cos φ * Real.cos ψ - Real.cos θ * Real.sin φ * Real.sin ψ) ^ 2 +
        (Real.cos θ * Real.sin φ * Real.cos ψ + Real.cos φ * Real.sin ψ) ^ 2 = (1 : ℝ) ^ 2 := by
      linear_combination (Real.cos φ ^ 2 + Real.cos θ ^ 2 * Real.sin φ ^ 2) * hpyψ +
        hpyφ + Real.sin φ ^ 2 * hc2
    have hcs : Real.cos (atan2 u.z u.y) =
        Real.cos φ * Real.cos ψ - Real.cos θ * Real.sin φ * Real.sin ψ := by
      rw [huy2, huz2, atan2_cos one_pos h1, div_one]
    have hss : Real.sin (atan2 u.z u.y) =
        Real.cos θ * Real.sin φ * Real.cos ψ + Real.cos φ * Real.sin ψ := by
      rw [huy2, huz2, atan2_sin one_pos h1, div_one]
    exact stg_pole θ2 φ2 (atan2 u.z u.y) θ φ ψ hzero hct hst2 hcp hsp hcs hss
  · -- sin θ > 0 : the recovered angles have the same sines and cosines
    have hsne : Real.sin θ ≠ 0 := ne_of_gt hpos
    have hst2 : Real.sin θ2 = Real.sin θ := by rw [hst, abs_of_pos hpos]
    have hcp : Real.cos φ2 = Real.cos φ := by
      have h := atan2_cos hpos (by linear_combination Real.sin θ ^ 2 * hpyφ :
        (Real.sin θ * Real.cos φ) ^ 2 + (Real.sin θ * Real.sin φ) ^ 2 = Real.sin θ ^ 2)
      rw [hφ2, h, mul_comm, mul_div_assoc, div_self hsne, mul_one]
    have hsp : Real.sin φ2 = Real.sin φ := by
      have h := atan2_sin hpos (by linear_combination Real.sin θ ^ 2 * hpyφ :
        (Real.sin θ * Real.cos φ) ^ 2 + (Real.sin θ * Real.sin φ) ^ 2 = Real.sin θ ^ 2)
      rw [hφ2, h, mul_comm, mul_div_assoc, div_self hsne, mul_one]
    have huy2 : u.y = Real.cos ψ := by
      rw [huy, hct, hst2, hcp, hsp, hv2]
      dsimp only
      linear_combination Real.cos ψ * hpyθ + Real.cos θ ^ 2 * Real.cos ψ * hpyφ
    have huz2 : u.z = Real.sin ψ := by
      rw [huz, hcp, hsp, hv2]
      dsimp only
      linear_combination Real.sin ψ * hpyφ
    have h1 : Real.cos ψ ^ 2 + Real.sin ψ ^ 2 = (1 : ℝ) ^ 2 := by linear_combination hpyψ
    have hcs : Real.cos (atan2 u.z u.y) = Real.cos ψ := by
      rw [huy2, huz2, atan2_cos one_pos h1, div_one]
    have hss : Real.sin (atan2 u.z u.y) = Real.sin ψ := by
      rw [huy2, huz2, atan2_sin one_pos h1, div_one]
    exact stg_congr θ2 φ2 (atan2 u.z u.y) θ φ ψ 1 (by ring) hct
      (by rw [hst2]; ring) (by rw [hcp]; ring) (by rw [hsp]; ring)
      (by rw [hcs]; ring) (by rw [hss]; ring)

/-- The three axes produced from angles are exactly orthonormal. -/
theorem stg_ortho (θ φ ψ : ℝ) :
    dot (spherical_coordinates_to_gammas θ φ ψ).1 (spherical_coordinates_to_gammas θ φ ψ).2.1 = 0 ∧
    dot (spherical_coordinates_to_gammas θ φ ψ).2.1 (spherical_coordinates_to_gammas θ φ ψ).2.2 = 0 ∧
    dot (spherical_coordinates_to_gammas θ φ ψ).2.2 (spherical_coordinates_to_gammas θ φ ψ).1 = 0 ∧
    dot (spherical_coordinates_to_gammas θ φ ψ).1 (spherical_coordinates_to_gammas θ φ ψ).1 = 1 ∧
    dot (spherical_coordinates_to_gammas θ φ ψ).2.1 (spherical_coordinates_to_gammas θ φ ψ).2.1 = 1 ∧
    dot (spherical_coordinates_to_gammas θ φ ψ).2.2 (spherical_coordinates_to_gammas θ φ ψ).2.2 = 1 := by
  have hpyθ : Real.sin θ ^ 2 + Real.cos θ ^ 2 = 1 := Real.sin_sq_add_cos_sq θ
  have hpyφ : Real.sin φ ^ 2 + Real.cos φ ^ 2 = 1 := Real.sin_sq_add_cos_sq φ
  have hpyψ : Real.sin ψ ^ 2 + Real.cos ψ ^ 2 = 1 := Real.sin_sq_add_cos_sq ψ
  simp only [spherical_coordinates_to_gammas, create_matrix_Gamma, create_matrix_H,
    create_matrix_K, MMul, Mat3.mul, Mat3.col0, Mat3.col1, Mat3.col2, dot]
  refine ⟨by linear_combination (Real.cos θ * Real.sin θ * Real.cos ψ) * hpyφ,
    by linear_combination (Real.cos ψ * Real.sin ψ * (1 - Real.cos θ ^ 2)) * hpyφ -
      (Real.cos ψ * Real.sin ψ) * hpyθ,
    by linear_combination (-(Real.cos θ * Real.sin θ * Real.sin ψ)) * hpyφ,
    by linear_combination Real.sin θ ^ 2 * hpyφ + hpyθ,
    by linear_combination (Real.cos θ ^ 2 * Real.cos ψ ^ 2 + Real.sin ψ ^ 2) * hpyφ +
      Real.cos ψ ^ 2 * hpyθ + hpyψ,
    by linear_combination (Real.cos θ ^ 2 * Real.sin ψ ^ 2 + Real.cos ψ ^ 2) * hpyφ +
      Real.sin ψ ^ 2 * hpyθ + hpyψ⟩

/-- `dot` of a scalar multiple with itself. -/
theorem dot_smul_self (r : ℝ) (v : Vec3) : dot (smul r v) (smul r v) = r ^ 2 * dot v v := by
  simp only [dot, smul]
  ring

/-- Dividing a scalar multiple by the (nonzero) scalar recovers the vector. -/
theorem vdiv_smul (r : ℝ) (hr : r ≠ 0) (v : Vec3) : vdiv (smul r v) r = v := by
  cases v
  simp only [vdiv, smul, Vec3.mk.injEq]
  refine ⟨?_, ?_, ?_⟩ <;> exact mul_div_cancel_left₀ _ hr

/-- The `norm` of `r • v` for a unit vector `v` and `r ≥ 0` is `r`. -/
theorem norm_smul_unit (r : ℝ) (hr : 0 ≤ r) (v : Vec3) (hv : dot v v = 1) :
    norm (smul r v) = r := by
  rw [norm, dot_smul_self, hv, mul_one, Real.sqrt_sq hr]

/-- C1: Cross-constructor consistency.  For every `theta, phi, psi` and
`kappa > 0`, `beta > 0`, the four constructors — `kent` from the angles,
`kent2` on the orthonormal triple derived from those angles, `kent3` on
`A = gamma1*kappa`, `B = gamma2*beta`, and `kent4` on the rotation matrix
with those columns — all succeed and yield exactly the same three axis
vectors `gamma1, gamma2, gamma3` (so in particular their componentwise
difference is below 1E-12). -/
theorem C1_cross_constructor_consistency (θ φ ψ κ β : ℝ) (hκ : 0 < κ) (hβ : 0 < β) :
    ∃ d1 d2 d3 d4 : KentDistribution,
      kent θ φ ψ κ β = d1 ∧
      kent2 (spherical_coordinates_to_gammas θ φ ψ).1 (spherical_coordinates_to_gammas θ φ ψ).2.1
        (spherical_coordinates_to_gammas θ φ ψ).2.2 κ β = some d2 ∧
      kent3 (smul κ (spherical_coordinates_to_gammas θ φ ψ).1)
        (smul β (spherical_coordinates_to_gammas θ φ ψ).2.1) = some d3 ∧
      kent4 (create_matrix_Gamma θ φ ψ) κ β = some d4 ∧
      d1.gamma1 = d2.gamma1 ∧ d1.gamma2 = d2.gamma2 ∧ d1.gamma3 = d2.gamma3 ∧
      d1.gamma1 = d3.gamma1 ∧ d1.gamma2 = d3.gamma2 ∧ d1.gamma3 = d3.gamma3 ∧
      d1.gamma1 = d4.gamma1 ∧ d1.gamma2 = d4.gamma2 ∧ d1.gamma3 = d4.gamma3 ∧
      d1.gamma1 = (spherical_coordinates_to_gammas θ φ ψ).1 ∧
      d1.gamma2 = (spherical_coordinates_to_gammas θ φ ψ).2.1 ∧
      d1.gamma3 = (spherical_coordinates_to_gammas θ φ ψ).2.2 := by
  obtain ⟨h12, h23, h31, h11, h22, h33⟩ := stg_ortho θ φ ψ
  have hcond : |dot (spherical_coordinates_to_gammas θ φ ψ).1
        (spherical_coordinates_to_gammas θ φ ψ).2.1| < 1e-10 ∧
      |dot (spherical_coordinates_to_gammas θ φ ψ).2.1
        (spherical_coordinates_to_gammas θ φ ψ).2.2| < 1e-10 ∧
      |dot (spherical_coordinates_to_gammas θ φ ψ).2.2
        (spherical_coordinates_to_gammas θ φ ψ).1| < 1e-10 := by
    rw [h12, h23, h31]
    norm_num
  have hd2 : kent2 (spherical_coordinates_to_gammas θ φ ψ).1
      (spherical_coordinates_to_gammas θ φ ψ).2.1
      (spherical_coordinates_to_gammas θ φ ψ).2.2 κ β =
      some (make (spherical_coordinates_to_gammas θ φ ψ).1
        (spherical_coordinates_to_gammas θ φ ψ).2.1
        (spherical_coordinates_to_gammas θ φ ψ).2.2 κ β) := by
    simp only [kent2]
    rw [if_pos hcond]
  have hrt := spherical_roundtrip θ φ ψ
    (gammas_to_spherical_coordinates (spherical_coordinates_to_gammas θ φ ψ).1
      (spherical_coordinates_to_gammas θ φ ψ).2.1) rfl
  have hA : norm (smul κ (spherical_coordinates_to_gammas θ φ ψ).1) = κ :=
    norm_smul_unit κ hκ.le _ h11
  have hB : norm (smul β (spherical_coordinates_to_gammas θ φ ψ).2.1) = β :=
    norm_smul_unit β hβ.le _ h22
  have hd3 : kent3 (smul κ (spherical_coordinates_to_gammas θ φ ψ).1)
      (smul β (spherical_coordinates_to_gammas θ φ ψ).2.1) =
      some (make (spherical_coordinates_to_gammas θ φ ψ).1
        (spherical_coordinates_to_gammas θ φ ψ).2.1
        (spherical_coordinates_to_gammas θ φ ψ).2.2 κ β) := by
    simp only [kent3]
    rw [hA, hB, if_neg hβ.ne', vdiv_smul κ hκ.ne' _, vdiv_smul β hβ.ne' _, hrt]
  exact ⟨_, _, _, _, rfl, hd2, hd3, hd2, rfl, rfl, rfl, rfl, rfl, rfl, rfl, rfl, rfl,
    rfl, rfl, rfl⟩

/-- Witness for C1 at `theta = phi = psi = 0`, `kappa = beta = 1`. -/
theorem C1_witness :
    ∃ d1 d2 d3 d4 : KentDistribution,
      kent 0 0 0 1 1 = d1 ∧
      kent2 (spherical_coordinates_to_gammas 0 0 0).1 (spherical_coordinates_to_gammas 0 0 0).2.1
        (spherical_coordinates_to_gammas 0 0 0).2.2 1 1 = some d2 ∧
      kent3 (smul 1 (spherical_coordinates_to_gammas 0 0 0).1)
        (smul 1 (spherical_coordinates_to_gammas 0 0 0).2.1) = some d3 ∧
      kent4 (create_matrix_Gamma 0 0 0) 1 1 = some d4 ∧
      d1.gamma1 = d2.gamma1 ∧ d1.gamma2 = d2.gamma2 ∧ d1.gamma3 = d2.gamma3 ∧
      d1.gamma1 = d3.gamma1 ∧ d1.gamma2 = d3.gamma2 ∧ d1.gamma3 = d3.gamma3 ∧
      d1.gamma1 = d4.gamma1 ∧ d1.gamma2 = d4.gamma2 ∧ d1.gamma3 = d4.gamma3 ∧
      d1.gamma1 = (spherical_coordinates_to_gammas 0 0 0).1 ∧
      d1.gamma2 = (spherical_coordinates_to_gammas 0 0 0).2.1 ∧
      d1.gamma3 = (spherical_coordinates_to_gammas 0 0 0).2.2 :=
  C1_cross_constructor_consistency 0 0 0 1 1 one_pos one_pos

/-- For positive `kappa` and `beta` the log-space loop term equals the
closed-form series term of the specification. -/
theorem seriesTerm_eq_specTerm (I : ℝ → ℝ → ℝ) {k b : ℝ} (hk : 0 < k) (hb : 0 < b)
    (j : ℕ) : seriesTerm I k b j = specTerm I k b j := by
  have h05k : (0 : ℝ) < 0.5 * k := by linarith
  rw [seriesTerm, specTerm, Real.exp_add, ← Real.rpow_def_of_pos hb,
    ← Real.rpow_def_of_pos h05k]
  have hb2 : b ^ (2 * (j : ℝ)) = b ^ (2 * j) := by
    rw [← Real.rpow_natCast b (2 * j)]
    norm_num
  have hk2 : (0.5 * k) ^ (-2 * (j : ℝ) - 0.5) = (k / 2) ^ (-2 * (j : ℝ) - 0.5) := by
    rw [show (0.5 : ℝ) * k = k / 2 from by ring]
  rw [hb2, hk2]
  ring

/-- The accumulation loop of `normalize`, started at index `j` with the
partial sum of the first `j` terms, returns the partial sum at the first
stopping index. -/
theorem normalizeLoop_spec (I : ℝ → ℝ → ℝ) (k b : ℝ) :
    ∀ (fuel j n : ℕ), j < n → seriesStop I k b n →
      (∀ m, j < m → m < n → ¬ seriesStop I k b m) → n - j ≤ fuel →
      normalizeLoop I k b fuel j (seriesSum I k b j) = some (seriesSum I k b n) := by
  intro fuel
  induction fuel with
  | zero => intro j n hjn _ _ hfuel; omega
  | succ fuel ih =>
    intro j n hjn hstop hmin hfuel
    rw [normalizeLoop]
    have hsum : seriesSum I k b j + seriesTerm I k b j = seriesSum I k b (j + 1) := by
      rw [seriesSum, seriesSum, Finset.sum_range_succ]
    by_cases hj1 : j + 1 = n
    · subst hj1
      rw [hsum]
      have hcond : |seriesTerm I k b j| < |seriesSum I k b (j + 1)| * 1e-12 ∧ 5 < j + 1 := by
        obtain ⟨h6, hlt⟩ := hstop
        refine ⟨?_, by omega⟩
        simpa using hlt
      rw [if_pos hcond]
    · have hj1n : j + 1 < n := by omega
      have hcond : ¬ (|seriesTerm I k b j| < |seriesSum I k b (j + 1)| * 1e-12 ∧ 5 < j + 1) := by
        intro hcond
        exact hmin (j + 1) (by omega) hj1n ⟨by omega, by simpa using hcond.1⟩
      rw [hsum, if_neg hcond]
      exact ih (j + 1) n hj1n hstop (fun m hm1 hm2 => hmin m (by omega) hm2) (by omega)

/-- C2: for every `kappa > 0` and `beta > 0`, `normalize` accumulates the
series of terms `Gamma(j+0.5)/Gamma(j+1) * beta^(2j) * (kappa/2)^(-2j-0.5)
* I(2j+0.5, kappa)` over `j ≥ 0`, stopping exactly at the first index `n`
at which the newest term is below 1E-12 of the running sum in magnitude and
at least 6 terms have been summed, and returns `2*pi` times the accumulated
sum. -/
theorem C2_normalize_series (I : ℝ → ℝ → ℝ) (k b : ℝ) (hk : 0 < k) (hb : 0 < b)
    (n fuel : ℕ) (hstop : specStop I k b n) (hmin : ∀ m, m < n → ¬ specStop I k b m)
    (hfuel : n ≤ fuel) :
    normalizeConst I fuel k b = some (2 * π * specSum I k b n) := by
  have hterm : ∀ j, seriesTerm I k b j = specTerm I k b j :=
    seriesTerm_eq_specTerm I hk hb
  have hsums : ∀ m, seriesSum I k b m = specSum I k b m := by
    intro m
    rw [seriesSum, specSum]
    exact Finset.sum_congr rfl (fun j _ => hterm j)
  have hstop2 : ∀ m, seriesStop I k b m ↔ specStop I k b m := by
    intro m
    rw [seriesStop, specStop, hterm, hsums]
  rw [normalizeConst, if_neg hb.ne']
  have h6 : 6 ≤ n := hstop.1
  have h0 : seriesSum I k b 0 = 0 := by simp [seriesSum]
  have hloop := normalizeLoop_spec I k b fuel 0 n (by omega : 0 < n)
    ((hstop2 n).mpr hstop) (fun m _ hm => fun hs => hmin m hm ((hstop2 m).mp hs))
    (by omega)
  rw [h0] at hloop
  rw [hloop, Option.map_some', hsums]

/-- Witness for C2: with the Bessel-function stub that is `Gamma(0.5)⁻¹`
at order `0.5` and `0` at every other order, `kappa = 2`, `beta = 1`, the
loop stops after exactly 6 terms and `normalize` returns `2*pi` times the
accumulated sum. -/
theorem C2_witness :
    normalizeConst (fun v _ => if v = 0.5 then (Real.Gamma 0.5)⁻¹ else 0) 6 2 1 =
      some (2 * π * specSum (fun v _ => if v = 0.5 then (Real.Gamma 0.5)⁻¹ else 0) 2 1 6) := by
  have hG : Real.Gamma 0.5 ≠ 0 := (Real.Gamma_pos_of_pos (by norm_num)).ne'
  have h0 : specTerm (fun v _ => if v = 0.5 then (Real.Gamma 0.5)⁻¹ else 0) 2 1 0 = 1 := by
    rw [specTerm]
    norm_num [Real.Gamma_one, Real.one_rpow]
    field_simp
  have hsucc : ∀ j : ℕ,
      specTerm (fun v _ => if v = 0.5 then (Real.Gamma 0.5)⁻¹ else 0) 2 1 (j + 1) = 0 := by
    intro j
    rw [specTerm]
    have hne : (2 * ((j : ℝ) + 1) + 0.5 : ℝ) ≠ 0.5 := by
      have : (0 : ℝ) ≤ (j : ℝ) := Nat.cast_nonneg j
      intro h
      linarith
    simp only [Nat.cast_add, Nat.cast_one]
    rw [if_neg hne, mul_zero]
  have hsum : specSum (fun v _ => if v = 0.5 then (Real.Gamma 0.5)⁻¹ else 0) 2 1 6 = 1 := by
    rw [specSum, Finset.sum_range_succ, Finset.sum_range_succ, Finset.sum_range_succ,
      Finset.sum_range_succ, Finset.sum_range_succ, Finset.sum_range_one, h0,
      hsucc 0, hsucc 1, hsucc 2, hsucc 3, hsucc 4]
    norm_num
  have hstop : specStop (fun v _ => if v = 0.5 then (Real.Gamma 0.5)⁻¹ else 0) 2 1 6 := by
    refine ⟨le_rfl, ?_⟩
    rw [show (6 - 1 : ℕ) = 4 + 1 from rfl, hsucc 4, hsum]
    norm_num
  have hmin : ∀ m, m < 6 →
      ¬ specStop (fun v _ => if v = 0.5 then (Real.Gamma 0.5)⁻¹ else 0) 2 1 m := by
    intro m hm hs
    exact absurd hs.1 (by omega)
  exact C2_normalize_series _ 2 1 (by norm_num) (by norm_num) 6 6 hstop hmin le_rfl

/-- C4: for `beta = 0` and any `kappa > 0`, `normalize` computes the closed
single-term formula `2*pi * (kappa/2)^(-0.5) * I(0.5, kappa) *
Gamma(0.5)/Gamma(1)` with no iteration (the result does not depend on the
loop fuel), and — given the standard half-order identity for the external
Bessel function, `I(0.5, k) = sqrt(2/(pi*k)) * sinh(k)` — it equals
`4*pi*sinh(kappa)/kappa` exactly (hence within relative error 1E-12). -/
theorem C4_normalize_beta_zero (I : ℝ → ℝ → ℝ) (k : ℝ) (hk : 0 < k)
    (hI : I 0.5 k = Real.sqrt (2 / (π * k)) * Real.sinh k) (fuel fuel2 : ℕ) :
    normalizeConst I fuel k 0 =
      some (2 * π * ((0.5 * k) ^ (-2 * (0 : ℝ) - 0.5) * I (2 * (0 : ℝ) + 0.5) k /
        Real.Gamma ((0 : ℝ) + 1) * Real.Gamma ((0 : ℝ) + 0.5))) ∧
    normalizeConst I fuel k 0 = normalizeConst I fuel2 k 0 ∧
    normalizeConst I fuel k 0 = some (4 * π * Real.sinh k / k) := by
  refine ⟨by rw [normalizeConst, if_pos rfl], by simp [normalizeConst], ?_⟩
  rw [normalizeConst, if_pos rfl]
  congr 1
  rw [show (2 * (0 : ℝ) + 0.5) = 0.5 from by norm_num, hI]
  rw [show ((0 : ℝ) + 1) = 1 from by norm_num, Real.Gamma_one]
  rw [show ((0 : ℝ) + 0.5) = 1 / 2 from by norm_num, Real.Gamma_one_half_eq]
  rw [show (-2 * (0 : ℝ) - 0.5 : ℝ) = -(1 / 2) from by norm_num]
  rw [Real.rpow_neg (by linarith : (0 : ℝ) ≤ 0.5 * k), ← Real.sqrt_eq_rpow]
  have key : (Real.sqrt (0.5 * k))⁻¹ * Real.sqrt (2 / (π * k)) * Real.sqrt π = 2 / k := by
    rw [← Real.sqrt_inv, ← Real.sqrt_mul (by positivity : (0 : ℝ) ≤ (0.5 * k)⁻¹),
      ← Real.sqrt_mul (by positivity : (0 : ℝ) ≤ (0.5 * k)⁻¹ * (2 / (π * k)))]
    rw [show ((0.5 * k)⁻¹ * (2 / (π * k)) * π) = (2 / k) ^ 2 from by
      field_simp
      ring]
    exact Real.sqrt_sq (by positivity)
  linear_combination (2 * π * Real.sinh k) * key

/-- Witness for C4 at `kappa = 1` with a Bessel-function stub satisfying
the half-order identity at that point. -/
theorem C4_witness :
    normalizeConst (fun _ _ => Real.sqrt (2 / (π * 1)) * Real.sinh 1) 0 1 0 =
      some (2 * π * ((0.5 * 1) ^ (-2 * (0 : ℝ) - 0.5) *
        (fun _ _ => Real.sqrt (2 / (π * 1)) * Real.sinh 1) (2 * (0 : ℝ) + 0.5) (1 : ℝ) /
        Real.Gamma ((0 : ℝ) + 1) * Real.Gamma ((0 : ℝ) + 0.5))) ∧
    normalizeConst (fun _ _ => Real.sqrt (2 / (π * 1)) * Real.sinh 1) 0 1 0 =
      normalizeConst (fun _ _ => Real.sqrt (2 / (π * 1)) * Real.sinh 1) 1 1 0 ∧
    normalizeConst (fun _ _ => Real.sqrt (2 / (π * 1)) * Real.sinh 1) 0 1 0 =
      some (4 * π * Real.sinh 1 / 1) := by
  exact C4_normalize_beta_zero (fun _ _ => Real.sqrt (2 / (π * 1)) * Real.sinh 1)
    1 one_pos rfl 0 1

/-- C5: for every distribution instance and batch of 3-vectors, `log_pdf`
computes `kappa*(gamma1.x) + beta*((gamma2.x)^2 - (gamma3.x)^2)` per point,
minus the log normalizing constant when `normalize` is true, and `pdf` is
the pointwise exponential of `log_pdf` (stated for any batch on which the
normalizer's series terminated, returning the constant `c`). -/
theorem C5_log_pdf_pdf (I : ℝ → ℝ → ℝ) (fuel : ℕ) (d : KentDistribution) (xs : List Vec3)
    (c : ℝ) (h : d.normalize I fuel = some c) :
    d.log_pdf I fuel xs true = some (xs.map (fun p =>
      d.kappa * dot d.gamma1 p + d.beta * ((dot d.gamma2 p) ^ 2 - (dot d.gamma3 p) ^ 2)
        - Real.log c)) ∧
    d.log_pdf I fuel xs false = some (xs.map (fun p =>
      d.kappa * dot d.gamma1 p + d.beta * ((dot d.gamma2 p) ^ 2 - (dot d.gamma3 p) ^ 2))) ∧
    d.pdf I fuel xs true = (d.log_pdf I fuel xs true).map (List.map Real.exp) ∧
    d.pdf I fuel xs false = (d.log_pdf I fuel xs false).map (List.map Real.exp) ∧
    d.pdf I fuel xs true = some (xs.map (fun p => Real.exp (
      d.kappa * dot d.gamma1 p + d.beta * ((dot d.gamma2 p) ^ 2 - (dot d.gamma3 p) ^ 2)
        - Real.log c))) := by
  have hln : d.log_normalize I fuel = some (Real.log c) := by
    rw [KentDistribution.log_normalize, h, Option.map_some']
  have h1 : d.log_pdf I fuel xs true = some (xs.map (fun p =>
      d.kappa * dot d.gamma1 p + d.beta * ((dot d.gamma2 p) ^ 2 - (dot d.gamma3 p) ^ 2)
        - Real.log c)) := by
    rw [KentDistribution.log_pdf, if_pos rfl, hln, Option.map_some']
    rfl
  refine ⟨h1, ?_, rfl, rfl, ?_⟩
  · rw [KentDistribution.log_pdf, if_neg (by simp)]
    rfl
  · rw [KentDistribution.pdf, h1, Option.map_some', List.map_map]
    rfl

/-- Witness for C5 with the standard frame, `kappa = 1`, `beta = 0`, a
constant Bessel stub, and the singleton batch at `(1, 0, 0)`. -/
theorem C5_witness :
    (KentDistribution.make ⟨1, 0, 0⟩ ⟨0, 1, 0⟩ ⟨0, 0, 1⟩ 1 0).log_pdf (fun _ _ => 1) 0
        [⟨1, 0, 0⟩] true =
      some ([⟨1, 0, 0⟩].map (fun p =>
        (KentDistribution.make ⟨1, 0, 0⟩ ⟨0, 1, 0⟩ ⟨0, 0, 1⟩ 1 0).kappa *
            dot (KentDistribution.make ⟨1, 0, 0⟩ ⟨0, 1, 0⟩ ⟨0, 0, 1⟩ 1 0).gamma1 p +
          (KentDistribution.make ⟨1, 0, 0⟩ ⟨0, 1, 0⟩ ⟨0, 0, 1⟩ 1 0).beta *
            ((dot (KentDistribution.make ⟨1, 0, 0⟩ ⟨0, 1, 0⟩ ⟨0, 0, 1⟩ 1 0).gamma2 p) ^ 2 -
              (dot (KentDistribution.make ⟨1, 0, 0⟩ ⟨0, 1, 0⟩ ⟨0, 0, 1⟩ 1 0).gamma3 p) ^ 2)
          - Real.log (2 * π * ((0.5 * 1) ^ (-2 * (0 : ℝ) - 0.5) * 1 /
              Real.Gamma ((0 : ℝ) + 1) * Real.Gamma ((0 : ℝ) + 0.5))))) ∧
    (KentDistribution.make ⟨1, 0, 0⟩ ⟨0, 1, 0⟩ ⟨0, 0, 1⟩ 1 0).log_pdf (fun _ _ => 1) 0
        [⟨1, 0, 0⟩] false =
      some ([⟨1, 0, 0⟩].map (fun p =>
        (KentDistribution.make ⟨1, 0, 0⟩ ⟨0, 1, 0⟩ ⟨0, 0, 1⟩ 1 0).kappa *
            dot (KentDistribution.make ⟨1, 0, 0⟩ ⟨0, 1, 0⟩ ⟨0, 0, 1⟩ 1 0).gamma1 p +
          (KentDistribution.make ⟨1, 0, 0⟩ ⟨0, 1, 0⟩ ⟨0, 0, 1⟩ 1 0).beta *
            ((dot (KentDistribution.make ⟨1, 0, 0⟩ ⟨0, 1, 0⟩ ⟨0, 0, 1⟩ 1 0).gamma2 p) ^ 2 -
              (dot (KentDistribution.make ⟨1, 0, 0⟩ ⟨0, 1, 0⟩ ⟨0, 0, 1⟩ 1 0).gamma3 p) ^ 2))) ∧
    (KentDistribution.make ⟨1, 0, 0⟩ ⟨0, 1, 0⟩ ⟨0, 0, 1⟩ 1 0).pdf (fun _ _ => 1) 0
        [⟨1, 0, 0⟩] true =
      ((KentDistribution.make ⟨1, 0, 0⟩ ⟨0, 1, 0⟩ ⟨0, 0, 1⟩ 1 0).log_pdf (fun _ _ => 1) 0
        [⟨1, 0, 0⟩] true).map (List.map Real.exp) ∧
    (KentDistribution.make ⟨1, 0, 0⟩ ⟨0, 1, 0⟩ ⟨0, 0, 1⟩ 1 0).pdf (fun _ _ => 1) 0
        [⟨1, 0, 0⟩] false =
      ((KentDistribution.make ⟨1, 0, 0⟩ ⟨0, 1, 0⟩ ⟨0, 0, 1⟩ 1 0).log_pdf (fun _ _ => 1) 0
        [⟨1, 0, 0⟩] false).map (List.map Real.exp) ∧
    (KentDistribution.make ⟨1, 0, 0⟩ ⟨0, 1, 0⟩ ⟨0, 0, 1⟩ 1 0).pdf (fun _ _ => 1) 0
        [⟨1, 0, 0⟩] true =
      some ([⟨1, 0, 0⟩].map (fun p => Real.exp (
        (KentDistribution.make ⟨1, 0, 0⟩ ⟨0, 1, 0⟩ ⟨0, 0, 1⟩ 1 0).kappa *
            dot (KentDistribution.make ⟨1, 0, 0⟩ ⟨0, 1, 0⟩ ⟨0, 0, 1⟩ 1 0).gamma1 p +
          (KentDistribution.make ⟨1, 0, 0⟩ ⟨0, 1, 0⟩ ⟨0, 0, 1⟩ 1 0).beta *
            ((dot (KentDistribution.make ⟨1, 0, 0⟩ ⟨0, 1, 0⟩ ⟨0, 0, 1⟩ 1 0).gamma2 p) ^ 2 -
              (dot (KentDistribution.make ⟨1, 0, 0⟩ ⟨0, 1, 0⟩ ⟨0, 0, 1⟩ 1 0).gamma3 p) ^ 2)
          - Real.log (2 * π * ((0.5 * 1) ^ (-2 * (0 : ℝ) - 0.5) * 1 /
              Real.Gamma ((0 : ℝ) + 1) * Real.Gamma ((0 : ℝ) + 0.5)))))) := by
  exact C5_log_pdf_pdf (fun _ _ => 1) 0 (KentDistribution.make ⟨1, 0, 0⟩ ⟨0, 1, 0⟩ ⟨0, 0, 1⟩ 1 0)
    [⟨1, 0, 0⟩] _ (by simp [KentDistribution.normalize, normalizeConst, KentDistribution.make])

/-- `dot` is symmetric. -/
theorem dot_comm (a b : Vec3) : dot a b = dot b a := by
  simp only [dot]
  ring

/-- `dot` is additive in its left argument. -/
theorem dot_vadd_left (a b c : Vec3) : dot (vadd a b) c = dot a c + dot b c := by
  simp only [dot, vadd]
  ring

/-- `dot` is additive in its right argument. -/
theorem dot_vadd_right (a b c : Vec3) : dot a (vadd b c) = dot a b + dot a c := by
  simp only [dot, vadd]
  ring

/-- `dot` pulls scalars out of its left argument. -/
theorem dot_smul_left (r : ℝ) (a b : Vec3) : dot (smul r a) b = r * dot a b := by
  simp only [dot, smul]
  ring

/-- `dot` pulls scalars out of its right argument. -/
theorem dot_smul_right (r : ℝ) (a b : Vec3) : dot a (smul r b) = r * dot a b := by
  simp only [dot, smul]
  ring

/-- A vector's `dot` with itself is nonnegative. -/
theorem dot_self_nonneg (v : Vec3) : 0 ≤ dot v v := by
  simp only [dot]
  nlinarith [mul_self_nonneg v.x, mul_self_nonneg v.y, mul_self_nonneg v.z]

/-- Bessel-type bound: for an orthonormal frame and a unit vector, the sum
of the squared frame coordinates is at most 1. -/
theorem frame_coord_bound (g1 g2 g3 p : Vec3)
    (h12 : dot g1 g2 = 0) (h13 : dot g1 g3 = 0) (h23 : dot g2 g3 = 0)
    (h11 : dot g1 g1 = 1) (h22 : dot g2 g2 = 1) (h33 : dot g3 g3 = 1)
    (hp : dot p p = 1) :
    (dot g1 p) ^ 2 + (dot g2 p) ^ 2 + (dot g3 p) ^ 2 ≤ 1 := by
  have hw := dot_self_nonneg
    (vadd (vadd (vadd p (smul (-(dot g1 p)) g1)) (smul (-(dot g2 p)) g2))
      (smul (-(dot g3 p)) g3))
  simp only [dot_vadd_left, dot_vadd_right, dot_smul_left, dot_smul_right] at hw
  rw [dot_comm p g1, dot_comm p g2, dot_comm p g3, dot_comm g2 g1, dot_comm g3 g1,
    dot_comm g3 g2] at hw
  rw [hp, h11, h22, h33, h12, h13, h23] at hw
  nlinarith [hw]

/-- C6: for a distribution with an orthonormal frame, `kappa ≥ 0` and
`beta ≥ 0`, the unnormalized log density of every unit vector is at most
`log_pdf_max(normalize=False)`, which equals `kappa*x1 + beta*(1 - x1^2)`
with `x1 = 1` when `beta = 0` and `x1 = min(kappa/(2*beta), 1)` otherwise;
the bound is attained at the unit point `x1*gamma1 + sqrt(1-x1^2)*gamma2`
(the point `(x1, sqrt(1-x1^2), 0)` of the gamma-aligned frame). -/
theorem C6_log_pdf_max_bound (I : ℝ → ℝ → ℝ) (fuel : ℕ) (d : KentDistribution)
    (h12 : dot d.gamma1 d.gamma2 = 0) (h13 : dot d.gamma1 d.gamma3 = 0)
    (h23 : dot d.gamma2 d.gamma3 = 0) (h11 : dot d.gamma1 d.gamma1 = 1)
    (h22 : dot d.gamma2 d.gamma2 = 1) (h33 : dot d.gamma3 d.gamma3 = 1)
    (hκ : 0 ≤ d.kappa) (hβ : 0 ≤ d.beta) (p : Vec3) (hp : dot p p = 1) :
    ∃ x1 : ℝ, x1 = (if d.beta = 0 then (1 : ℝ) else min (d.kappa / (2 * d.beta)) 1) ∧
      d.log_pdf_max I fuel false = some (d.kappa * x1 + d.beta * (1 - x1 ^ 2)) ∧
      d.log_pdf_core p ≤ d.kappa * x1 + d.beta * (1 - x1 ^ 2) ∧
      d.log_pdf_core (vadd (smul x1 d.gamma1) (smul (Real.sqrt (1 - x1 ^ 2)) d.gamma2)) =
        d.kappa * x1 + d.beta * (1 - x1 ^ 2) ∧
      dot (vadd (smul x1 d.gamma1) (smul (Real.sqrt (1 - x1 ^ 2)) d.gamma2))
        (vadd (smul x1 d.gamma1) (smul (Real.sqrt (1 - x1 ^ 2)) d.gamma2)) = 1 := by
  refine ⟨if d.beta = 0 then (1 : ℝ) else min (d.kappa / (2 * d.beta)) 1, rfl, ?_, ?_, ?_, ?_⟩
  · -- the closed-form maximum returned by log_pdf_max(normalize=False)
    rw [KentDistribution.log_pdf_max, if_neg (by simp)]
    by_cases hb0 : d.beta = 0
    · rw [if_pos hb0, if_pos hb0, if_neg (lt_irrefl (1 : ℝ))]
    · rw [if_neg hb0, if_neg hb0]
      have hx : d.kappa * 1.0 / (2 * d.beta) = d.kappa / (2 * d.beta) := by ring
      rw [hx, min_def]
      split_ifs with ha hc
      · linarith
      · rfl
      · rfl
      · linarith
  · -- the upper bound over the sphere
    have hball := frame_coord_bound d.gamma1 d.gamma2 d.gamma3 p h12 h13 h23 h11 h22 h33 hp
    rw [KentDistribution.log_pdf_core]
    by_cases hb0 : d.beta = 0
    · rw [if_pos hb0, hb0]
      nlinarith [hball, sq_nonneg (dot d.gamma1 p - 1), sq_nonneg (dot d.gamma2 p),
        sq_nonneg (dot d.gamma3 p), mul_nonneg hκ (sq_nonneg (dot d.gamma1 p))]
    · rw [if_neg hb0]
      have hbpos : 0 < d.beta := lt_of_le_of_ne hβ (Ne.symm hb0)
      have ha1 : dot d.gamma1 p ≤ 1 := by
        nlinarith [hball, sq_nonneg (dot d.gamma1 p - 1), sq_nonneg (dot d.gamma2 p),
          sq_nonneg (dot d.gamma3 p)]
      rcases le_or_lt (d.kappa / (2 * d.beta)) 1 with hle | hgt
      · rw [min_eq_left hle]
        have hkb : d.kappa = 2 * d.beta * (d.kappa / (2 * d.beta)) := by
          field_simp
        nlinarith [mul_nonneg hbpos.le (sq_nonneg (d.kappa / (2 * d.beta) - dot d.gamma1 p)),
          mul_nonneg hbpos.le (sub_nonneg.mpr hball),
          mul_nonneg hbpos.le (sq_nonneg (dot d.gamma3 p))]
      · rw [min_eq_right hgt.le]
        have hk2b : 2 * d.beta ≤ d.kappa := by
          rw [lt_div_iff (by linarith : (0 : ℝ) < 2 * d.beta)] at hgt
          linarith
        nlinarith [mul_nonneg (sub_nonneg.mpr ha1) (sub_nonneg.mpr hk2b),
          mul_nonneg hbpos.le (sub_nonneg.mpr hball),
          mul_nonneg hbpos.le (sq_nonneg (dot d.gamma3 p)),
          mul_nonneg hbpos.le (sq_nonneg (1 - dot d.gamma1 p))]
  · -- attainment at the point (x1, sqrt(1-x1^2), 0) of the frame
    have hx01 : 0 ≤ (if d.beta = 0 then (1 : ℝ) else min (d.kappa / (2 * d.beta)) 1) ∧
        (if d.beta = 0 then (1 : ℝ) else min (d.kappa / (2 * d.beta)) 1) ≤ 1 := by
      split_ifs with hb0
      · exact ⟨zero_le_one, le_rfl⟩
      · have hbpos : 0 < d.beta := lt_of_le_of_ne hβ (Ne.symm hb0)
        refine ⟨le_min (by positivity) zero_le_one, min_le_right _ _⟩
    have hx2 : Real.sqrt (1 - (if d.beta = 0 then (1 : ℝ) else
        min (d.kappa / (2 * d.beta)) 1) ^ 2) ^ 2 =
        1 - (if d.beta = 0 then (1 : ℝ) else min (d.kappa / (2 * d.beta)) 1) ^ 2 :=
      Real.sq_sqrt (by nlinarith [hx01.1, hx01.2])
    have h21 : dot d.gamma2 d.gamma1 = 0 := by rw [dot_comm]; exact h12
    have h31 : dot d.gamma3 d.gamma1 = 0 := by rw [dot_comm]; exact h13
    have h32 : dot d.gamma3 d.gamma2 = 0 := by rw [dot_comm]; exact h23
    rw [KentDistribution.log_pdf_core]
    simp only [dot_vadd_left, dot_vadd_right, dot_smul_left, dot_smul_right,
      h11, h22, h33, h12, h13, h23, h21, h31, h32]
    linear_combination d.beta * hx2
  · -- the attaining point lies on the sphere
    have hx01 : 0 ≤ (if d.beta = 0 then (1 : ℝ) else min (d.kappa / (2 * d.beta)) 1) ∧
        (if d.beta = 0 then (1 : ℝ) else min (d.kappa / (2 * d.beta)) 1) ≤ 1 := by
      split_ifs with hb0
      · exact ⟨zero_le_one, le_rfl⟩
      · have hbpos : 0 < d.beta := lt_of_le_of_ne hβ (Ne.symm hb0)
        refine ⟨le_min (by positivity) zero_le_one, min_le_right _ _⟩
    have hx2 : Real.sqrt (1 - (if d.beta = 0 then (1 : ℝ) else
        min (d.kappa / (2 * d.beta)) 1) ^ 2) ^ 2 =
        1 - (if d.beta = 0 then (1 : ℝ) else min (d.kappa / (2 * d.beta)) 1) ^ 2 :=
      Real.sq_sqrt (by nlinarith [hx01.1, hx01.2])
    have h21 : dot d.gamma2 d.gamma1 = 0 := by rw [dot_comm]; exact h12
    simp only [dot_vadd_left, dot_vadd_right, dot_smul_left, dot_smul_right,
      h11, h22, h12, h21]
    linear_combination hx2

/-- Witness for C6 with the standard frame, `kappa = 1`, `beta = 0`, and
the unit point `(1, 0, 0)`. -/
theorem C6_witness :
    ∃ x1 : ℝ, x1 = (if (KentDistribution.make ⟨1, 0, 0⟩ ⟨0, 1, 0⟩ ⟨0, 0, 1⟩ 1 0).beta = 0
        then (1 : ℝ)
        else min ((KentDistribution.make ⟨1, 0, 0⟩ ⟨0, 1, 0⟩ ⟨0, 0, 1⟩ 1 0).kappa /
          (2 * (KentDistribution.make ⟨1, 0, 0⟩ ⟨0, 1, 0⟩ ⟨0, 0, 1⟩ 1 0).beta)) 1) ∧
      (KentDistribution.make ⟨1, 0, 0⟩ ⟨0, 1, 0⟩ ⟨0, 0, 1⟩ 1 0).log_pdf_max (fun _ _ => 1) 0
          false =
        some ((KentDistribution.make ⟨1, 0, 0⟩ ⟨0, 1, 0⟩ ⟨0, 0, 1⟩ 1 0).kappa * x1 +
          (KentDistribution.make ⟨1, 0, 0⟩ ⟨0, 1, 0⟩ ⟨0, 0, 1⟩ 1 0).beta * (1 - x1 ^ 2)) ∧
      (KentDistribution.make ⟨1, 0, 0⟩ ⟨0, 1, 0⟩ ⟨0, 0, 1⟩ 1 0).log_pdf_core ⟨1, 0, 0⟩ ≤
        (KentDistribution.make ⟨1, 0, 0⟩ ⟨0, 1, 0⟩ ⟨0, 0, 1⟩ 1 0).kappa * x1 +
          (KentDistribution.make ⟨1, 0, 0⟩ ⟨0, 1, 0⟩ ⟨0, 0, 1⟩ 1 0).beta * (1 - x1 ^ 2) ∧
      (KentDistribution.make ⟨1, 0, 0⟩ ⟨0, 1, 0⟩ ⟨0, 0, 1⟩ 1 0).log_pdf_core
          (vadd (smul x1 (KentDistribution.make ⟨1, 0, 0⟩ ⟨0, 1, 0⟩ ⟨0, 0, 1⟩ 1 0).gamma1)
            (smul (Real.sqrt (1 - x1 ^ 2))
              (KentDistribution.make ⟨1, 0, 0⟩ ⟨0, 1, 0⟩ ⟨0, 0, 1⟩ 1 0).gamma2)) =
        (KentDistribution.make ⟨1, 0, 0⟩ ⟨0, 1, 0⟩ ⟨0, 0, 1⟩ 1 0).kappa * x1 +
          (KentDistribution.make ⟨1, 0, 0⟩ ⟨0, 1, 0⟩ ⟨0, 0, 1⟩ 1 0).beta * (1 - x1 ^ 2) ∧
      dot (vadd (smul x1 (KentDistribution.make ⟨1, 0, 0⟩ ⟨0, 1, 0⟩ ⟨0, 0, 1⟩ 1 0).gamma1)
            (smul (Real.sqrt (1 - x1 ^ 2))
              (KentDistribution.make ⟨1, 0, 0⟩ ⟨0, 1, 0⟩ ⟨0, 0, 1⟩ 1 0).gamma2))
          (vadd (smul x1 (KentDistribution.make ⟨1, 0, 0⟩ ⟨0, 1, 0⟩ ⟨0, 0, 1⟩ 1 0).gamma1)
            (smul (Real.sqrt (1 - x1 ^ 2))
              (KentDistribution.make ⟨1, 0, 0⟩ ⟨0, 1, 0⟩ ⟨0, 0, 1⟩ 1 0).gamma2)) = 1 := by
  exact C6_log_pdf_max_bound (fun _ _ => 1) 0
    (KentDistribution.make ⟨1, 0, 0⟩ ⟨0, 1, 0⟩ ⟨0, 0, 1⟩ 1 0)
    (by simp [KentDistribution.make, dot]) (by simp [KentDistribution.make, dot])
    (by simp [KentDistribution.make, dot]) (by simp [KentDistribution.make, dot])
    (by simp [KentDistribution.make, dot]) (by simp [KentDistribution.make, dot])
    (by simp [KentDistribution.make]) (by simp [KentDistribution.make])
    ⟨1, 0, 0⟩ (by simp [dot])

/-- C9 counterexample: `kent3` does not fail fast on a zero-length primary
axis vector.  With `A = (0,0,0)` (so `norm A = 0`) construction still
returns a distribution instead of surfacing the precondition violation. -/
theorem C9_counterexample :
    norm (⟨0, 0, 0⟩ : Vec3) = 0 ∧ (kent3 ⟨0, 0, 0⟩ ⟨0, 1, 0⟩).isSome = true := by
  constructor
  · simp [norm, dot]
  · rfl

/-- C9 (amended): `kent3` performs no validation at all: for every `A` and
`B` (zero-length `A` included) it returns a distribution, whose stored
concentration and ovalness are `norm A` and `norm B` unchecked.  The
zero-length precondition on `A` is only documented, never enforced. -/
theorem C9_kent3_never_fails (A B : Vec3) :
    ∃ d : KentDistribution, kent3 A B = some d ∧ d.kappa = norm A ∧ d.beta = norm B :=
  ⟨_, rfl, rfl, rfl⟩

/-- C10: `kent2` rejects its input exactly when one of the three pairwise
inner products of `gamma1, gamma2, gamma3` has absolute value at least
1E-10; `kent4` delegates to `kent2` on the matrix columns; and unit length
is never validated — the mutually orthogonal vectors `(2,0,0), (0,3,0),
(0,0,4)`, none of unit length, are accepted. -/
theorem C10_kent2_validation :
    (∀ (g1 g2 g3 : Vec3) (κ β : ℝ),
      (kent2 g1 g2 g3 κ β).isSome = true ↔
        |dot g1 g2| < 1e-10 ∧ |dot g2 g3| < 1e-10 ∧ |dot g3 g1| < 1e-10) ∧
    (∀ (Gamma : Mat3) (κ β : ℝ),
      kent4 Gamma κ β = kent2 Gamma.col0 Gamma.col1 Gamma.col2 κ β) ∧
    (kent2 ⟨2, 0, 0⟩ ⟨0, 3, 0⟩ ⟨0, 0, 4⟩ 1 1).isSome = true ∧
    dot (⟨2, 0, 0⟩ : Vec3) ⟨2, 0, 0⟩ ≠ 1 ∧ dot (⟨0, 3, 0⟩ : Vec3) ⟨0, 3, 0⟩ ≠ 1 ∧
    dot (⟨0, 0, 4⟩ : Vec3) ⟨0, 0, 4⟩ ≠ 1 := by
  refine ⟨?_, fun Gamma κ β => rfl, ?_, by norm_num [dot], by norm_num [dot],
    by norm_num [dot]⟩
  · intro g1 g2 g3 κ β
    rw [kent2]
    split_ifs with h
    · simp [h]
    · simp [h]
  · rw [kent2, if_pos (by norm_num [dot])]
    rfl

/-- C7 counterexample: the feasible set of the constraints actually handed
to the optimizer (`abs(x[-2]) - 2*abs(x[-1]) ≥ 0`, `x[-2] ≥ 0`,
`x[-1] ≥ 0`, on the free optimizer variables) is not the set where the
candidate's parameters satisfy `kappa - 2*beta ≥ 0`, `kappa ≥ 0`,
`beta ≥ 0`: at the iterate `(0, 0, 0, -1, 0)` the candidate parameters
satisfy all three claimed constraints, but the imposed constraint
`x[-2] ≥ 0` is violated. -/
theorem C7_counterexample :
    ¬ ((0 ≤ cons1 ⟨0, 0, 0, -1, 0⟩ ∧ 0 ≤ cons2 ⟨0, 0, 0, -1, 0⟩ ∧
        0 ≤ cons3 ⟨0, 0, 0, -1, 0⟩) ↔
      (0 ≤ (generate_k ⟨0, 0, 0, -1, 0⟩).kappa - 2 * (generate_k ⟨0, 0, 0, -1, 0⟩).beta ∧
        0 ≤ (generate_k ⟨0, 0, 0, -1, 0⟩).kappa ∧ 0 ≤ (generate_k ⟨0, 0, 0, -1, 0⟩).beta)) := by
  intro h
  have hclaimed : 0 ≤ (generate_k ⟨0, 0, 0, -1, 0⟩).kappa -
      2 * (generate_k ⟨0, 0, 0, -1, 0⟩).beta ∧
      0 ≤ (generate_k ⟨0, 0, 0, -1, 0⟩).kappa ∧ 0 ≤ (generate_k ⟨0, 0, 0, -1, 0⟩).beta := by
    refine ⟨?_, ?_, ?_⟩ <;>
      norm_num [generate_k, kent, KentDistribution.make,
        KentDistribution.minimum_value_for_kappa]
  have hfeas := h.mpr hclaimed
  have := hfeas.2.1
  norm_num [cons2] at this

/-- C7 (amended): `kent_mle` reparameterizes the candidate at any iterate
`x` as `kappa = floor + abs(free_kappa)`, `beta = abs(free_beta)`, its
objective is the negative mean log-likelihood
`-log_likelihood(xs)/len(xs)`, and the inequality constraints are imposed
on the free optimizer variables — `abs(free_kappa) - 2*abs(free_beta) ≥ 0`,
`free_kappa ≥ 0`, `free_beta ≥ 0` — so that at every feasible iterate the
candidate's parameters do satisfy `kappa - 2*beta ≥ 0` (by at least the
floor), `kappa ≥ 0`, and `beta ≥ 0`. -/
theorem C7_mle_setup_amended (I : ℝ → ℝ → ℝ) (fuel : ℕ) (xs : List Vec3) (x : X5) :
    (generate_k x).kappa = KentDistribution.minimum_value_for_kappa + |x.fudge_kappa| ∧
    (generate_k x).beta = |x.fudge_beta| ∧
    minus_log_likelihood I fuel xs x =
      ((generate_k x).log_likelihood I fuel xs).map (fun L => -L / (xs.length : ℝ)) ∧
    cons1 x = |x.fudge_kappa| - 2 * |x.fudge_beta| ∧
    cons2 x = x.fudge_kappa ∧ cons3 x = x.fudge_beta ∧
    ((0 ≤ cons1 x ∧ 0 ≤ cons2 x ∧ 0 ≤ cons3 x) →
      (KentDistribution.minimum_value_for_kappa ≤
          (generate_k x).kappa - 2 * (generate_k x).beta ∧
        0 ≤ (generate_k x).kappa - 2 * (generate_k x).beta ∧
        0 ≤ (generate_k x).kappa ∧ 0 ≤ (generate_k x).beta)) := by
  refine ⟨rfl, rfl, rfl, rfl, rfl, rfl, ?_⟩
  intro hfeas
  obtain ⟨hc1, hc2, hc3⟩ := hfeas
  rw [cons1] at hc1
  have hκ : (generate_k x).kappa =
      KentDistribution.minimum_value_for_kappa + |x.fudge_kappa| := rfl
  have hβ : (generate_k x).beta = |x.fudge_beta| := rfl
  rw [hκ, hβ, KentDistribution.minimum_value_for_kappa]
  refine ⟨by norm_num; linarith, by norm_num; linarith, by positivity, abs_nonneg _⟩

/-- Witness for C7 (amended) at the feasible iterate `(0, 0, 0, 3, 1)`. -/
theorem C7_witness :
    KentDistribution.minimum_value_for_kappa ≤
        (generate_k ⟨0, 0, 0, 3, 1⟩).kappa - 2 * (generate_k ⟨0, 0, 0, 3, 1⟩).beta ∧
      0 ≤ (generate_k ⟨0, 0, 0, 3, 1⟩).kappa - 2 * (generate_k ⟨0, 0, 0, 3, 1⟩).beta ∧
      0 ≤ (generate_k ⟨0, 0, 0, 3, 1⟩).kappa ∧ 0 ≤ (generate_k ⟨0, 0, 0, 3, 1⟩).beta :=
  (C7_mle_setup_amended (fun _ _ => 1) 0 [] ⟨0, 0, 0, 3, 1⟩).2.2.2.2.2.2
    ⟨by norm_num [cons1], by norm_num [cons2], by norm_num [cons3]⟩

/-- From `a^2 ≤ n^2` and `0 ≤ n` conclude `a ≤ n`. -/
theorem le_of_sq_le_sq (a n : ℝ) (h : a ^ 2 ≤ n ^ 2) (hn : 0 ≤ n) : a ≤ n := by
  nlinarith [sq_nonneg (a - n), sq_nonneg (a + n)]

/-- Cauchy-Schwarz for the 3-vector inner product, by Lagrange's identity. -/
theorem dot_sq_le (a b : Vec3) : (dot a b) ^ 2 ≤ dot a a * dot b b := by
  simp only [dot]
  nlinarith [sq_nonneg (a.x * b.y - a.y * b.x), sq_nonneg (a.x * b.z - a.z * b.x),
    sq_nonneg (a.y * b.z - a.z * b.y)]

/-- Cauchy-Schwarz with the all-ones vector: the square of a list sum is at
most the length times the sum of squares. -/
theorem list_sq_sum (l : List ℝ) : (l.sum) ^ 2 ≤ (l.length : ℝ) * (l.map (fun a => a ^ 2)).sum := by
  induction l with
  | nil => simp
  | cons a t ih =>
    simp only [List.sum_cons, List.map_cons, List.length_cons]
    push_cast
    have h1 : 0 ≤ (t.length : ℝ) * (List.map (fun a => a ^ 2) t).sum - t.sum ^ 2 := by
      linarith [ih]
    by_cases ht0 : t = []
    · subst ht0
      simp
    · have hn1 : (1 : ℝ) ≤ (t.length : ℝ) := by
        have := List.length_pos.mpr ht0
        exact_mod_cast this
      have hE : 0 ≤ (t.length : ℝ) * a ^ 2 + (List.map (fun a => a ^ 2) t).sum -
          2 * t.sum * a := by
        nlinarith [sq_nonneg ((t.length : ℝ) * a - t.sum), h1, hn1]
      nlinarith [h1, hE]

/-- `dot` against a list sum is the list sum of `dot`s. -/
theorem dot_vsum (y : Vec3) (l : List Vec3) :
    dot y (vsum l) = (l.map (fun p => dot y p)).sum := by
  induction l with
  | nil => simp [vsum, dot]
  | cons p t ih =>
    simp only [vsum, List.foldr_cons, List.map_cons, List.sum_cons] at *
    rw [dot_vadd_right, ih]

/-- The quadratic form of a sum of self outer products is the sum of
squared inner products. -/
theorem dot_msum_outer (y : Vec3) (l : List Vec3) :
    dot y ((msum (l.map (fun p => outer p p))).mulVec y) =
      (l.map (fun p => (dot y p) ^ 2)).sum := by
  induction l with
  | nil => simp [msum, Mat3.zero, Mat3.mulVec, dot]
  | cons p t ih =>
    simp only [msum, List.foldr_cons, List.map_cons, List.sum_cons] at *
    have hadd : ∀ (A B : Mat3),
        dot y ((A.add B).mulVec y) = dot y (A.mulVec y) + dot y (B.mulVec y) := by
      intro A B
      simp only [dot, Mat3.add, Mat3.mulVec]
      ring
    have houter : dot y ((outer p p).mulVec y) = (dot y p) ^ 2 := by
      simp only [dot, outer, Mat3.mulVec]
      ring
    rw [hadd, houter, ih]

/-- The trace of a sum of self outer products is the sum of the squared
norms. -/
theorem trace_msum_outer (l : List Vec3) :
    (msum (l.map (fun p => outer p p))).a00 + (msum (l.map (fun p => outer p p))).a11 +
      (msum (l.map (fun p => outer p p))).a22 = (l.map (fun p => dot p p)).sum := by
  induction l with
  | nil => simp [msum, Mat3.zero]
  | cons p t ih =>
    simp only [msum, List.foldr_cons, List.map_cons, List.sum_cons] at *
    simp only [Mat3.add, outer, dot] at *
    ring_nf
    linarith [ih]

/-- The squared norm of a sum of unit vectors is at most the squared
count. -/
theorem dot_vsum_le (l : List Vec3) (h : ∀ p ∈ l, dot p p = 1) :
    dot (vsum l) (vsum l) ≤ (l.length : ℝ) ^ 2 := by
  induction l with
  | nil => simp [vsum, dot]
  | cons p t ih =>
    have hp : dot p p = 1 := h p (List.mem_cons_self p t)
    have ht : ∀ q ∈ t, dot q q = 1 := fun q hq => h q (List.mem_cons_of_mem p hq)
    have iht := ih ht
    have htt : 0 ≤ dot (vsum t) (vsum t) := dot_self_nonneg (vsum t)
    have hps : dot p (vsum t) ≤ (t.length : ℝ) := by
      apply le_of_sq_le_sq _ _ _ (Nat.cast_nonneg t.length)
      calc (dot p (vsum t)) ^ 2 ≤ dot p p * dot (vsum t) (vsum t) := dot_sq_le _ _
      _ ≤ (t.length : ℝ) ^ 2 := by rw [hp, one_mul]; exact iht
    simp only [vsum, List.foldr_cons, List.length_cons] at *
    rw [dot_vadd_left, dot_vadd_right, dot_vadd_right, dot_comm (List.foldr vadd ⟨0, 0, 0⟩ t) p]
    push_cast
    nlinarith [hps, iht, hp]

/-- The columns of `create_matrix_H` are orthonormal for all angles. -/
theorem H_ortho (θ φ : ℝ) :
    dot (create_matrix_H θ φ).col0 (create_matrix_H θ φ).col1 = 0 ∧
    dot (create_matrix_H θ φ).col0 (create_matrix_H θ φ).col2 = 0 ∧
    dot (create_matrix_H θ φ).col1 (create_matrix_H θ φ).col2 = 0 ∧
    dot (create_matrix_H θ φ).col0 (create_matrix_H θ φ).col0 = 1 ∧
    dot (create_matrix_H θ φ).col1 (create_matrix_H θ φ).col1 = 1 ∧
    dot (create_matrix_H θ φ).col2 (create_matrix_H θ φ).col2 = 1 := by
  have hpyθ : Real.sin θ ^ 2 + Real.cos θ ^ 2 = 1 := Real.sin_sq_add_cos_sq θ
  have hpyφ : Real.sin φ ^ 2 + Real.cos φ ^ 2 = 1 := Real.sin_sq_add_cos_sq φ
  simp only [create_matrix_H, Mat3.col0, Mat3.col1, Mat3.col2, dot]
  refine ⟨by linear_combination Real.sin θ * Real.cos θ * hpyφ, by ring, by ring,
    by linear_combination Real.sin θ ^ 2 * hpyφ + hpyθ,
    by linear_combination Real.cos θ ^ 2 * hpyφ + hpyθ, by linear_combination hpyφ⟩

/-- When built from the spherical coordinates of a unit vector, the first
column of `H` is exactly that vector. -/
theorem H_col0_eq (v : Vec3) (hv : dot v v = 1) :
    (create_matrix_H (gamma1_to_spherical_coordinates v).1
      (gamma1_to_spherical_coordinates v).2).col0 = v := by
  have hv' : v.x * v.x + v.y * v.y + v.z * v.z = 1 := hv
  have hx1 : -1 ≤ v.x := by
    nlinarith [mul_self_nonneg v.y, mul_self_nonneg v.z, sq_nonneg (v.x + 1)]
  have hx2 : v.x ≤ 1 := by
    nlinarith [mul_self_nonneg v.y, mul_self_nonneg v.z, sq_nonneg (v.x - 1)]
  have hct : Real.cos (Real.arccos v.x) = v.x := Real.cos_arccos hx1 hx2
  have hst : Real.sin (Real.arccos v.x) = Real.sqrt (v.y ^ 2 + v.z ^ 2) := by
    rw [Real.sin_arccos]
    congr 1
    nlinarith [hv']
  simp only [gamma1_to_spherical_coordinates, create_matrix_H, Mat3.col0]
  rcases eq_or_lt_of_le (Real.sqrt_nonneg (v.y ^ 2 + v.z ^ 2)) with hρ | hρ
  · have hyz : v.y ^ 2 + v.z ^ 2 = 0 := by
      have := Real.sqrt_eq_zero (by positivity : (0 : ℝ) ≤ v.y ^ 2 + v.z ^ 2)
      exact this.mp hρ.symm
    have hy : v.y = 0 := by nlinarith [sq_nonneg v.y, sq_nonneg v.z]
    have hz : v.z = 0 := by nlinarith [sq_nonneg v.y, sq_nonneg v.z]
    rw [hct, hst, ← hρ]
    cases v
    simp only [Vec3.mk.injEq] at *
    subst hy
    subst hz
    norm_num
  · have hsq : v.y ^ 2 + v.z ^ 2 = Real.sqrt (v.y ^ 2 + v.z ^ 2) ^ 2 :=
      (Real.sq_sqrt (by positivity)).symm
    have hcp : Real.cos (atan2 v.z v.y) = v.y / Real.sqrt (v.y ^ 2 + v.z ^ 2) :=
      atan2_cos hρ hsq
    have hsp : Real.sin (atan2 v.z v.y) = v.z / Real.sqrt (v.y ^ 2 + v.z ^ 2) :=
      atan2_sin hρ hsq
    rw [hct, hst, hcp, hsp]
    cases v
    simp only [Vec3.mk.injEq]
    refine ⟨trivial, ?_, ?_⟩ <;> field_simp [hρ.ne']

/-- Conjugation by `H` preserves the trace, for every angle pair. -/
theorem traceB_H (θ φ : ℝ) (S : Mat3) :
    (MMul (create_matrix_Ht θ φ) (MMul S (create_matrix_H θ φ))).a00 +
      (MMul (create_matrix_Ht θ φ) (MMul S (create_matrix_H θ φ))).a11 +
      (MMul (create_matrix_Ht θ φ) (MMul S (create_matrix_H θ φ))).a22 =
      S.a00 + S.a11 + S.a22 := by
  have hpyθ : Real.sin θ ^ 2 + Real.cos θ ^ 2 = 1 := Real.sin_sq_add_cos_sq θ
  have hpyφ : Real.sin φ ^ 2 + Real.cos φ ^ 2 = 1 := Real.sin_sq_add_cos_sq φ
  simp only [create_matrix_Ht, create_matrix_H, Mat3.transpose, MMul, Mat3.mul]
  linear_combination (S.a00 + S.a11 * Real.cos φ ^ 2 + S.a22 * Real.sin φ ^ 2 +
      (S.a12 + S.a21) * Real.cos φ * Real.sin φ) * hpyθ + (S.a11 + S.a22) * hpyφ

/-- The five entries of `MMul(transpose(H), MMul(S, H))` used by the moment
estimator, as quadratic forms in the columns of `H`. -/
theorem conj_entries (S H : Mat3) :
    (MMul H.transpose (MMul S H)).a00 = dot H.col0 (S.mulVec H.col0) ∧
    (MMul H.transpose (MMul S H)).a11 = dot H.col1 (S.mulVec H.col1) ∧
    (MMul H.transpose (MMul S H)).a22 = dot H.col2 (S.mulVec H.col2) ∧
    (MMul H.transpose (MMul S H)).a12 = dot H.col1 (S.mulVec H.col2) ∧
    (MMul H.transpose (MMul S H)).a21 = dot H.col2 (S.mulVec H.col1) := by
  simp only [MMul, Mat3.mul, Mat3.transpose, Mat3.mulVec, Mat3.col0, Mat3.col1, Mat3.col2, dot]
  refine ⟨by ring, by ring, by ring, by ring, by ring⟩

/-- Quadratic-form expansion over a two-vector combination. -/
theorem quad_expand (S : Mat3) (a b : ℝ) (u v : Vec3) :
    dot (vadd (smul a u) (smul b v)) (S.mulVec (vadd (smul a u) (smul b v))) =
      a ^ 2 * dot u (S.mulVec u) + a * b * dot u (S.mulVec v) +
        a * b * dot v (S.mulVec u) + b ^ 2 * dot v (S.mulVec v) := by
  simp only [dot, vadd, smul, Mat3.mulVec]
  ring

/-- `dot2` is symmetric. -/
theorem dot2_comm (a b : Vec2) : dot2 a b = dot2 b a := by
  simp only [dot2]
  ring

/-- The descending-order swap of `kent_me` preserves the eigendecomposition
contract and orders the two eigenvalues. -/
theorem swFn_contract (eig2 : Mat2 → (ℝ × ℝ) × Mat2) (xs : List Vec3)
    (h : EigContract (B2Fn xs) (eig2 (B2Fn xs))) :
    EigContract (B2Fn xs) (swFn eig2 xs) ∧ (swFn eig2 xs).1.2 ≤ (swFn eig2 xs).1.1 := by
  obtain ⟨h1, h2, h3, h4, h5⟩ := h
  rw [swFn]
  split_ifs with hlt
  · exact ⟨⟨h2, h1, h4, h3, by rw [dot2_comm]; exact h5⟩, le_of_lt hlt⟩
  · exact ⟨⟨h1, h2, h3, h4, h5⟩, le_of_not_lt hlt⟩

/-- The first column of `G = MMul(H, K)` is the first column of `H`. -/
theorem GFn_col0 (eig2 : Mat2 → (ℝ × ℝ) × Mat2) (xs : List Vec3) :
    (GFn eig2 xs).col0 = (HFn xs).col0 := by
  simp only [GFn, KFn, MMul, Mat3.mul, Mat3.col0, Vec3.mk.injEq]
  refine ⟨by ring, by ring, by ring⟩

/-- The second column of `G` combines the last two columns of `H` with the
first ordered eigenvector. -/
theorem GFn_col1 (eig2 : Mat2 → (ℝ × ℝ) × Mat2) (xs : List Vec3) :
    (GFn eig2 xs).col1 = vadd (smul (swFn eig2 xs).2.a00 (HFn xs).col1)
      (smul (swFn eig2 xs).2.a10 (HFn xs).col2) := by
  simp only [GFn, KFn, MMul, Mat3.mul, Mat3.col1, Mat3.col2, vadd, smul, Vec3.mk.injEq]
  refine ⟨by ring, by ring, by ring⟩

/-- The third column of `G` combines the last two columns of `H` with the
second ordered eigenvector. -/
theorem GFn_col2 (eig2 : Mat2 → (ℝ × ℝ) × Mat2) (xs : List Vec3) :
    (GFn eig2 xs).col2 = vadd (smul (swFn eig2 xs).2.a01 (HFn xs).col1)
      (smul (swFn eig2 xs).2.a11 (HFn xs).col2) := by
  simp only [GFn, KFn, MMul, Mat3.mul, Mat3.col1, Mat3.col2, vadd, smul, Vec3.mk.injEq]
  refine ⟨by ring, by ring, by ring⟩

/-- Quadratic form of a matrix scaled entrywise by `1/r`. -/
theorem sdiv_quad (A : Mat3) (r : ℝ) (y : Vec3) :
    dot y ((A.sdiv r).mulVec y) = dot y (A.mulVec y) / r := by
  simp only [dot, Mat3.sdiv, Mat3.mulVec]
  ring

/-- `dot` against an entrywise-scaled vector. -/
theorem vdiv_dot (y v : Vec3) (r : ℝ) : dot y (vdiv v r) = dot y v / r := by
  simp only [dot, vdiv]
  ring

/-- Squared norm of an entrywise-scaled vector. -/
theorem vdiv_dot_self (v : Vec3) (r : ℝ) :
    dot (vdiv v r) (vdiv v r) = dot v v / r ^ 2 := by
  simp only [dot, vdiv]
  ring

/-- The empirical dispersion matrix is positive semidefinite. -/
theorem SFn_psd (xs : List Vec3) (y : Vec3) : 0 ≤ dot y ((SFn xs).mulVec y) := by
  rw [SFn, sdiv_quad, dot_msum_outer]
  apply div_nonneg _ (Nat.cast_nonneg xs.length)
  apply List.sum_nonneg
  intro x hx
  obtain ⟨p, _, hp⟩ := List.mem_map.mp hx
  rw [← hp]
  exact sq_nonneg _

/-- The quadratic form of the dispersion matrix dominates the squared inner
product with the mean: the variance of `dot y` over the batch is
nonnegative. -/
theorem SFn_quad_ge (xs : List Vec3) (y : Vec3) (hne : xs ≠ []) :
    (dot y (xbarFn xs)) ^ 2 ≤ dot y ((SFn xs).mulVec y) := by
  have hn : 0 < (xs.length : ℝ) := by
    have := List.length_pos.mpr hne
    exact_mod_cast this
  rw [SFn, sdiv_quad, dot_msum_outer, xbarFn, vdiv_dot, dot_vsum]
  have hcs := list_sq_sum (xs.map (fun p => dot y p))
  rw [List.length_map, List.map_map] at hcs
  have hmap : (List.map ((fun a => a ^ 2) ∘ fun p => dot y p) xs) =
      (List.map (fun p => dot y p ^ 2) xs) := by
    simp [Function.comp]
  rw [hmap] at hcs
  rw [div_pow, div_le_div_iff (by positivity) hn]
  nlinarith [hcs, hn]

/-- Over a batch of unit vectors the squared norms sum to the batch size. -/
theorem sum_dot_units (xs : List Vec3) (hunit : ∀ p ∈ xs, dot p p = 1) :
    (xs.map (fun p => dot p p)).sum = (xs.length : ℝ) := by
  induction xs with
  | nil => simp
  | cons p t ih =>
    simp only [List.map_cons, List.sum_cons, List.length_cons]
    rw [hunit p (List.mem_cons_self p t), ih (fun q hq => hunit q (List.mem_cons_of_mem p hq))]
    push_cast
    ring

/-- The trace of the dispersion matrix of a non-empty batch of unit vectors
is 1. -/
theorem SFn_trace (xs : List Vec3) (hne : xs ≠ []) (hunit : ∀ p ∈ xs, dot p p = 1) :
    (SFn xs).a00 + (SFn xs).a11 + (SFn xs).a22 = 1 := by
  have hn : (xs.length : ℝ) ≠ 0 := by
    have := List.length_pos.mpr hne
    positivity
  simp only [SFn, Mat3.sdiv]
  rw [div_add_div_same, div_add_div_same, trace_msum_outer, sum_dot_units xs hunit]
  exact div_self hn

/-- Mixed inner product of two combinations of a vector pair. -/
theorem dot_combo (a b c d : ℝ) (u v : Vec3) :
    dot (vadd (smul a u) (smul b v)) (vadd (smul c u) (smul d v)) =
      a * c * dot u u + (a * d + b * c) * dot u v + b * d * dot v v := by
  simp only [dot, vadd, smul]
  ring

theorem make_kappa (g1 g2 g3 : Vec3) (k b : ℝ) :
    (KentDistribution.make g1 g2 g3 k b).kappa = k := rfl

theorem make_beta (g1 g2 g3 : Vec3) (k b : ℝ) :
    (KentDistribution.make g1 g2 g3 k b).beta = b := rfl

set_option maxHeartbeats 1600000 in
/-- C8: for every non-empty batch of unit direction vectors on which the
moment computations are defined (nonzero mean resultant, the two
closed-form denominators nonzero) and for an eigendecomposition routine
satisfying its contract on the computed sub-block, the distribution
returned by the moment estimator `kent_me` satisfies `kappa ≥` the minimum
floor (which is 1E-6), `beta ≥ 0`, and `2*beta ≤ kappa`. -/
theorem C8_kent_me_invariants (eig2 : Mat2 → (ℝ × ℝ) × Mat2) (xs : List Vec3)
    (hne : xs ≠ []) (hunit : ∀ p ∈ xs, dot p p = 1)
    (hxbar : norm (xbarFn xs) ≠ 0)
    (heig : EigContract (B2Fn xs) (eig2 (B2Fn xs)))
    (ha : 2 - 2 * r1Fn xs - r2Fn eig2 xs ≠ 0) :
    ∃ d : KentDistribution, kent_me eig2 xs = some d ∧
      KentDistribution.minimum_value_for_kappa ≤ d.kappa ∧
      KentDistribution.minimum_value_for_kappa = 1e-6 ∧
      0 ≤ d.beta ∧ 2 * d.beta ≤ d.kappa := by
  have hn : 0 < (xs.length : ℝ) := by
    have := List.length_pos.mpr hne
    exact_mod_cast this
  obtain ⟨hsw, hord⟩ := swFn_contract eig2 xs heig
  obtain ⟨hsw1, hsw2, hsw3, hsw4, hsw5⟩ := hsw
  have e1x := congrArg Vec2.x hsw1
  have e1y := congrArg Vec2.y hsw1
  have e2x := congrArg Vec2.x hsw2
  have e2y := congrArg Vec2.y hsw2
  simp only [Mat2.mulVec, smul2, Mat2.col0, Mat2.col1] at e1x e1y e2x e2y
  simp only [dot2, Mat2.col0, Mat2.col1] at hsw3 hsw4 hsw5
  have hBdef : BFn xs = MMul (HFn xs).transpose (MMul (SFn xs) (HFn xs)) := rfl
  obtain ⟨hb00, hb11, hb22, hb12, hb21⟩ := conj_entries (SFn xs) (HFn xs)
  rw [← hBdef] at hb00 hb11 hb22 hb12 hb21
  have hB2a00 : (B2Fn xs).a00 = (BFn xs).a11 := rfl
  have hB2a01 : (B2Fn xs).a01 = (BFn xs).a12 := rfl
  have hB2a10 : (B2Fn xs).a10 = (BFn xs).a21 := rfl
  have hB2a11 : (B2Fn xs).a11 = (BFn xs).a22 := rfl
  simp only [hB2a00, hB2a01, hB2a10, hB2a11, hb11, hb12, hb21, hb22] at e1x e1y e2x e2y
  have hTdef : TFn eig2 xs =
      MMul (GFn eig2 xs).transpose (MMul (SFn xs) (GFn eig2 xs)) := rfl
  obtain ⟨ht00, ht11, ht22, ht12, ht21⟩ := conj_entries (SFn xs) (GFn eig2 xs)
  rw [← hTdef] at ht11 ht22
  rw [GFn_col1, quad_expand] at ht11
  rw [GFn_col2, quad_expand] at ht22
  have hT11 : (TFn eig2 xs).a11 = (swFn eig2 xs).1.1 := by
    rw [ht11]
    linear_combination (swFn eig2 xs).2.a00 * e1x + (swFn eig2 xs).2.a10 * e1y +
      (swFn eig2 xs).1.1 * hsw3
  have hT22 : (TFn eig2 xs).a22 = (swFn eig2 xs).1.2 := by
    rw [ht22]
    linear_combination (swFn eig2 xs).2.a01 * e2x + (swFn eig2 xs).2.a11 * e2y +
      (swFn eig2 xs).1.2 * hsw4
  have hr2 : r2Fn eig2 xs = (swFn eig2 xs).1.1 - (swFn eig2 xs).1.2 := by
    rw [r2Fn, hT11, hT22]
  have hl2psd : 0 ≤ (swFn eig2 xs).1.2 := by
    have hq := SFn_psd xs (vadd (smul (swFn eig2 xs).2.a01 (HFn xs).col1)
      (smul (swFn eig2 xs).2.a11 (HFn xs).col2))
    rw [quad_expand] at hq
    have hEq : (swFn eig2 xs).2.a01 ^ 2 * dot (HFn xs).col1 ((SFn xs).mulVec (HFn xs).col1) +
        (swFn eig2 xs).2.a01 * (swFn eig2 xs).2.a11 *
          dot (HFn xs).col1 ((SFn xs).mulVec (HFn xs).col2) +
        (swFn eig2 xs).2.a01 * (swFn eig2 xs).2.a11 *
          dot (HFn xs).col2 ((SFn xs).mulVec (HFn xs).col1) +
        (swFn eig2 xs).2.a11 ^ 2 * dot (HFn xs).col2 ((SFn xs).mulVec (HFn xs).col2) =
        (swFn eig2 xs).1.2 := by
      linear_combination (swFn eig2 xs).2.a01 * e2x + (swFn eig2 xs).2.a11 * e2y +
        (swFn eig2 xs).1.2 * hsw4
    linarith only [hq, hEq]
  have hl1b : (swFn eig2 xs).1.1 ≤
      dot (HFn xs).col1 ((SFn xs).mulVec (HFn xs).col1) +
        dot (HFn xs).col2 ((SFn xs).mulVec (HFn xs).col2) := by
    have hq := SFn_psd xs (vadd (smul (swFn eig2 xs).2.a10 (HFn xs).col1)
      (smul (-((swFn eig2 xs).2.a00)) (HFn xs).col2))
    rw [quad_expand] at hq
    have hEq : (swFn eig2 xs).2.a10 ^ 2 * dot (HFn xs).col1 ((SFn xs).mulVec (HFn xs).col1) +
        (swFn eig2 xs).2.a10 * (-((swFn eig2 xs).2.a00)) *
          dot (HFn xs).col1 ((SFn xs).mulVec (HFn xs).col2) +
        (swFn eig2 xs).2.a10 * (-((swFn eig2 xs).2.a00)) *
          dot (HFn xs).col2 ((SFn xs).mulVec (HFn xs).col1) +
        (-((swFn eig2 xs).2.a00)) ^ 2 * dot (HFn xs).col2 ((SFn xs).mulVec (HFn xs).col2) =
        dot (HFn xs).col1 ((SFn xs).mulVec (HFn xs).col1) +
          dot (HFn xs).col2 ((SFn xs).mulVec (HFn xs).col2) - (swFn eig2 xs).1.1 := by
      linear_combination (-((swFn eig2 xs).2.a00)) * e1x + (-((swFn eig2 xs).2.a10)) * e1y +
        (dot (HFn xs).col1 ((SFn xs).mulVec (HFn xs).col1) +
          dot (HFn xs).col2 ((SFn xs).mulVec (HFn xs).col2) - (swFn eig2 xs).1.1) * hsw3
    linarith only [hq, hEq]
  have htrB : (BFn xs).a00 + (BFn xs).a11 + (BFn xs).a22 = 1 := by
    have h := traceB_H (tpFn xs).1 (tpFn xs).2 (SFn xs)
    rw [SFn_trace xs hne hunit] at h
    exact h
  have hγunit : dot (gamma1Fn xs) (gamma1Fn xs) = 1 := by
    rw [gamma1Fn, vdiv_dot_self,
      show dot (xbarFn xs) (xbarFn xs) = (norm (xbarFn xs)) ^ 2 from
        (Real.sq_sqrt (dot_self_nonneg _)).symm]
    exact div_self (pow_ne_zero 2 hxbar)
  have hHc0 : (HFn xs).col0 = gamma1Fn xs := H_col0_eq (gamma1Fn xs) hγunit
  have hγx : dot (gamma1Fn xs) (xbarFn xs) = r1Fn xs := by
    rw [gamma1Fn, dot_comm, vdiv_dot,
      show dot (xbarFn xs) (xbarFn xs) = (norm (xbarFn xs)) ^ 2 from
        (Real.sq_sqrt (dot_self_nonneg _)).symm,
      r1Fn, sq, mul_div_assoc, div_self hxbar, mul_one]
  have hB00ge : (r1Fn xs) ^ 2 ≤ (BFn xs).a00 := by
    rw [hb00, hHc0, ← hγx]
    exact SFn_quad_ge xs (gamma1Fn xs) hne
  have hr1nn : 0 ≤ r1Fn xs := Real.sqrt_nonneg _
  have hr1le : r1Fn xs ≤ 1 := by
    have hdle : dot (xbarFn xs) (xbarFn xs) ≤ 1 := by
      rw [xbarFn, vdiv_dot_self, div_le_one (by positivity : (0 : ℝ) < (xs.length : ℝ) ^ 2)]
      exact dot_vsum_le xs hunit
    calc r1Fn xs = Real.sqrt (dot (xbarFn xs) (xbarFn xs)) := rfl
    _ ≤ Real.sqrt 1 := Real.sqrt_le_sqrt hdle
    _ = 1 := Real.sqrt_one
  have hApos : 0 < 2 - 2 * r1Fn xs - r2Fn eig2 xs := by
    have h1 : (1 - r1Fn xs) ^ 2 ≤ 2 - 2 * r1Fn xs - r2Fn eig2 xs := by
      rw [hr2]
      have htr2 : (BFn xs).a00 + dot (HFn xs).col1 ((SFn xs).mulVec (HFn xs).col1) +
          dot (HFn xs).col2 ((SFn xs).mulVec (HFn xs).col2) = 1 := by
        rw [← hb11, ← hb22]
        exact htrB
      have hlin : 1 - 2 * r1Fn xs + (r1Fn xs) ^ 2 ≤
          2 - 2 * r1Fn xs - ((swFn eig2 xs).1.1 - (swFn eig2 xs).1.2) := by
        linarith only [hl1b, hl2psd, hB00ge, htr2]
      calc (1 - r1Fn xs) ^ 2 = 1 - 2 * r1Fn xs + (r1Fn xs) ^ 2 := by ring
      _ ≤ _ := hlin
    exact lt_of_le_of_ne (le_trans (sq_nonneg _) h1) (Ne.symm ha)
  have hr2nn : 0 ≤ r2Fn eig2 xs := by
    rw [hr2]
    linarith only [hord]
  have hBpos : 0 < 2 - 2 * r1Fn xs + r2Fn eig2 xs := by linarith only [hApos, hr2nn]
  have hHdef : HFn xs = create_matrix_H (tpFn xs).1 (tpFn xs).2 := rfl
  obtain ⟨hH01, hH02, hH12, hH00, hH11, hH22⟩ := H_ortho (tpFn xs).1 (tpFn xs).2
  rw [← hHdef] at hH01 hH02 hH12 hH00 hH11 hH22
  have hg01 : dot (GFn eig2 xs).col0 (GFn eig2 xs).col1 = 0 := by
    rw [GFn_col0, GFn_col1, dot_vadd_right, dot_smul_right, dot_smul_right, hH01, hH02]
    ring
  have hg12 : dot (GFn eig2 xs).col1 (GFn eig2 xs).col2 = 0 := by
    rw [GFn_col1, GFn_col2, dot_combo, hH11, hH12, hH22]
    linear_combination hsw5
  have hg20 : dot (GFn eig2 xs).col2 (GFn eig2 xs).col0 = 0 := by
    rw [dot_comm, GFn_col0, GFn_col2, dot_vadd_right, dot_smul_right, dot_smul_right,
      hH01, hH02]
    ring
  have hmain : kent_me eig2 xs = some (KentDistribution.make (GFn eig2 xs).col0
      (GFn eig2 xs).col1 (GFn eig2 xs).col2 (kappaFn eig2 xs) (betaFn eig2 xs)) := by
    rw [kent_me, kent4, kent2, if_pos]
    exact ⟨by rw [hg01]; norm_num, by rw [hg12]; norm_num, by rw [hg20]; norm_num⟩
  have hnum : (2.0 : ℝ) = 2 ∧ (1.0 : ℝ) = 1 ∧ (0.5 : ℝ) = 1 / 2 := by norm_num
  have hkd : kappaFn eig2 xs = max KentDistribution.minimum_value_for_kappa
      (1 / (2 - 2 * r1Fn xs - r2Fn eig2 xs) + 1 / (2 - 2 * r1Fn xs + r2Fn eig2 xs)) := by
    rw [kappaFn, hnum.1, hnum.2.1]
  have hbd : betaFn eig2 xs = 1 / 2 * (1 / (2 - 2 * r1Fn xs - r2Fn eig2 xs) -
      1 / (2 - 2 * r1Fn xs + r2Fn eig2 xs)) := by
    rw [betaFn, hnum.1, hnum.2.1, hnum.2.2]
  have hinvB : 0 < 1 / (2 - 2 * r1Fn xs + r2Fn eig2 xs) := by positivity
  have hinvle : 1 / (2 - 2 * r1Fn xs + r2Fn eig2 xs) ≤
      1 / (2 - 2 * r1Fn xs - r2Fn eig2 xs) :=
    one_div_le_one_div_of_le hApos (by linarith only [hr2nn])
  refine ⟨_, hmain, ?_, rfl, ?_, ?_⟩
  · rw [make_kappa, hkd]
    exact le_max_left _ _
  · rw [make_beta, hbd]
    linarith only [hinvle]
  · rw [make_kappa, make_beta, hkd, hbd]
    have hmax := le_max_right KentDistribution.minimum_value_for_kappa
      (1 / (2 - 2 * r1Fn xs - r2Fn eig2 xs) + 1 / (2 - 2 * r1Fn xs + r2Fn eig2 xs))
    linarith only [hmax, hinvB]
/-- Witness for C8: the two-point unit batch `[(3/5, 4/5, 0), (3/5, -4/5, 0)]`
with the eigendecomposition routine that reads off the diagonal of the (here
diagonal) sub-block.  All hypotheses hold and the moment estimator's output
satisfies the three invariants. -/
theorem C8_witness :
    ∃ d : KentDistribution,
      kent_me (fun M => ((M.a00, M.a11), (⟨1, 0, 0, 1⟩ : Mat2)))
          [⟨3/5, 4/5, 0⟩, ⟨3/5, -(4/5), 0⟩] = some d ∧
        KentDistribution.minimum_value_for_kappa ≤ d.kappa ∧
        KentDistribution.minimum_value_for_kappa = 1e-6 ∧
        0 ≤ d.beta ∧ 2 * d.beta ≤ d.kappa := by
  have hxb : xbarFn [(⟨3/5, 4/5, 0⟩ : Vec3), ⟨3/5, -(4/5), 0⟩] = ⟨3/5, 0, 0⟩ := by
    simp only [xbarFn, vsum, List.foldr_cons, List.foldr_nil, vadd, vdiv,
      List.length_cons, List.length_nil]
    norm_num
  have hnorm : norm (⟨3/5, 0, 0⟩ : Vec3) = 3/5 := by
    rw [norm, show dot (⟨3/5, 0, 0⟩ : Vec3) (⟨3/5, 0, 0⟩ : Vec3) = (3/5)^2 from by
      norm_num [dot]]
    exact Real.sqrt_sq (by norm_num)
  have hg1 : gamma1Fn [(⟨3/5, 4/5, 0⟩ : Vec3), ⟨3/5, -(4/5), 0⟩] = ⟨1, 0, 0⟩ := by
    rw [gamma1Fn, hxb, hnorm]
    norm_num [vdiv]
  have htp : tpFn [(⟨3/5, 4/5, 0⟩ : Vec3), ⟨3/5, -(4/5), 0⟩] = (0, 0) := by
    rw [tpFn, hg1, KentDistribution.gamma1_to_spherical_coordinates]
    norm_num [atan2, Real.arccos_one, Complex.arg_zero]
  have hH : HFn [(⟨3/5, 4/5, 0⟩ : Vec3), ⟨3/5, -(4/5), 0⟩] =
      ⟨1, 0, 0, 0, 1, 0, 0, 0, 1⟩ := by
    rw [HFn, htp]
    norm_num [KentDistribution.create_matrix_H]
  have hHt : HtFn [(⟨3/5, 4/5, 0⟩ : Vec3), ⟨3/5, -(4/5), 0⟩] =
      ⟨1, 0, 0, 0, 1, 0, 0, 0, 1⟩ := by
    rw [HtFn, htp]
    norm_num [KentDistribution.create_matrix_Ht, KentDistribution.create_matrix_H,
      Mat3.transpose]
  have hS : SFn [(⟨3/5, 4/5, 0⟩ : Vec3), ⟨3/5, -(4/5), 0⟩] =
      ⟨9/25, 0, 0, 0, 16/25, 0, 0, 0, 0⟩ := by
    simp only [SFn, List.map_cons, List.map_nil, msum, List.foldr_cons, List.foldr_nil,
      outer, Mat3.add, Mat3.zero, Mat3.sdiv, List.length_cons, List.length_nil]
    norm_num
  have hB : BFn [(⟨3/5, 4/5, 0⟩ : Vec3), ⟨3/5, -(4/5), 0⟩] =
      ⟨9/25, 0, 0, 0, 16/25, 0, 0, 0, 0⟩ := by
    rw [BFn, hHt, hS, hH]
    norm_num [MMul, Mat3.mul]
  have hB2 : B2Fn [(⟨3/5, 4/5, 0⟩ : Vec3), ⟨3/5, -(4/5), 0⟩] = ⟨16/25, 0, 0, 0⟩ := by
    rw [B2Fn, hB]
  have hsw : swFn (fun M => ((M.a00, M.a11), (⟨1, 0, 0, 1⟩ : Mat2)))
      [(⟨3/5, 4/5, 0⟩ : Vec3), ⟨3/5, -(4/5), 0⟩] = ((16/25, 0), ⟨1, 0, 0, 1⟩) := by
    rw [swFn, hB2]
    norm_num
  have hK : KFn (fun M => ((M.a00, M.a11), (⟨1, 0, 0, 1⟩ : Mat2)))
      [(⟨3/5, 4/5, 0⟩ : Vec3), ⟨3/5, -(4/5), 0⟩] = ⟨1, 0, 0, 0, 1, 0, 0, 0, 1⟩ := by
    rw [KFn, hsw]
  have hG : GFn (fun M => ((M.a00, M.a11), (⟨1, 0, 0, 1⟩ : Mat2)))
      [(⟨3/5, 4/5, 0⟩ : Vec3), ⟨3/5, -(4/5), 0⟩] = ⟨1, 0, 0, 0, 1, 0, 0, 0, 1⟩ := by
    rw [GFn, hH, hK]
    norm_num [MMul, Mat3.mul]
  have hT : TFn (fun M => ((M.a00, M.a11), (⟨1, 0, 0, 1⟩ : Mat2)))
      [(⟨3/5, 4/5, 0⟩ : Vec3), ⟨3/5, -(4/5), 0⟩] =
      ⟨9/25, 0, 0, 0, 16/25, 0, 0, 0, 0⟩ := by
    rw [TFn, hG, hS]
    norm_num [MMul, Mat3.mul, Mat3.transpose]
  have hr1 : r1Fn [(⟨3/5, 4/5, 0⟩ : Vec3), ⟨3/5, -(4/5), 0⟩] = 3/5 := by
    rw [r1Fn, hxb]
    exact hnorm
  have hr2c : r2Fn (fun M => ((M.a00, M.a11), (⟨1, 0, 0, 1⟩ : Mat2)))
      [(⟨3/5, 4/5, 0⟩ : Vec3), ⟨3/5, -(4/5), 0⟩] = 16/25 := by
    rw [r2Fn, hT]
    norm_num
  refine C8_kent_me_invariants (fun M => ((M.a00, M.a11), (⟨1, 0, 0, 1⟩ : Mat2)))
    [⟨3/5, 4/5, 0⟩, ⟨3/5, -(4/5), 0⟩] (List.cons_ne_nil _ _) ?_ ?_ ?_ ?_
  · intro p hp
    simp only [List.mem_cons, List.not_mem_nil, or_false] at hp
    rcases hp with rfl | rfl <;> norm_num [dot]
  · rw [hxb, hnorm]
    norm_num
  · rw [hB2]
    norm_num [EigContract, Mat2.mulVec, smul2, dot2, Mat2.col0, Mat2.col1]
  · rw [hr1, hr2c]
    norm_num
